import Mathlib

/-!
Verification of the cdb ("constant database") reader and writer.

The database file is modelled as a list of bytes (`File`).  The lookup
engine (`readNums`, `matchChunks`, `Iterate`, `nextAux`, `next`,
`NextBytes`, `existsKey`, `ForEachReader`, `ForEachBytes`) is a shallow
embedding of src/cdb.go; all 32-bit arithmetic is made explicit with
`% U32`.  The table builder, the hash function and the textual dumper are
not part of the sources and are modelled from the specification.
-/

namespace Cdb

/-- 2^32, the modulus of all uint32 arithmetic in the Go sources. -/
def U32 : Nat := 4294967296

/-- A database file: a finite sequence of bytes. -/
abbrev File := List Nat

/-- A record: a key and a value, each a byte sequence. -/
abbrev Rec := List Nat × List Nat

/-- A list of naturals that are genuine byte values. -/
def ByteOk (l : List Nat) : Prop := ∀ b ∈ l, b < 256

instance : DecidablePred ByteOk := fun l => List.decidableBAll _ l

/-- Every record of the stream has byte-valued keys and values. -/
def RecsOk (rs : List Rec) : Prop := ∀ r ∈ rs, ByteOk r.1 ∧ ByteOk r.2

instance : DecidablePred RecsOk := fun rs => List.decidableBAll _ rs

/-- Normalise a list of naturals to bytes; identity on genuine byte lists. -/
def bnorm (l : List Nat) : List Nat := l.map (· % 256)

/-- The byte stored at offset `i` of the file (Go byte slices only ever
hold values below 256, which the `% 256` makes intrinsic). -/
def byteAt (f : File) (i : Nat) : Nat := f.getD i 0 % 256

/-- The `len` bytes of the file starting at offset `pos`. -/
def extract (f : File) (pos len : Nat) : List Nat := bnorm ((f.drop pos).take len)

/-- Little-endian encoding of a 32-bit value, as in encoding/binary. -/
def le32 (n : Nat) : List Nat :=
  [n % 256, n / 256 % 256, n / 65536 % 256, n / 16777216 % 256]

/-- Little-endian decoding of four bytes, as binary.LittleEndian.Uint32. -/
def dec32 (b0 b1 b2 b3 : Nat) : Nat := b0 + 256 * b1 + 65536 * b2 + 16777216 * b3

/-- Errors surfaced by the reader: io.EOF, io.ErrUnexpectedEOF, or any
other I/O failure of the backing source. -/
inductive Err where
  | eof
  | unexpectedEOF
  | other
deriving DecidableEq, Repr

/-- Error of a raw ReadAt call on the backing byte source. -/
inductive ReadAtErr where
  | eof
  | other
deriving DecidableEq, Repr

instance {ε α : Type} [DecidableEq ε] [DecidableEq α] : DecidableEq (Except ε α) := fun x y =>
  match x, y with
  | .error a, .error b =>
    if h : a = b then .isTrue (by rw [h]) else .isFalse (fun hc => by cases hc; exact h rfl)
  | .ok a, .ok b =>
    if h : a = b then .isTrue (by rw [h]) else .isFalse (fun hc => by cases hc; exact h rfl)
  | .error _, .ok _ => .isFalse (fun hc => by cases hc)
  | .ok _, .error _ => .isFalse (fun hc => by cases hc)

/-- Result (count, error) of `ReadAt(buf, pos)` with `len(buf) = cnt` on a
bytes.Reader backed by `f`: offsets at or past the end give (0, io.EOF), a
full copy gives no error, a partial copy gives io.EOF. -/
def readAtResult (f : File) (pos cnt : Nat) : Nat × Option ReadAtErr :=
  if f.length ≤ pos then (0, some .eof)
  else if pos + cnt ≤ f.length then (cnt, none)
  else (f.length - pos, some .eof)

/-- Error handling of `readNums` (src/cdb.go lines 308-318): an EOF that
delivered the full 8 bytes is ignored, any other EOF becomes
io.ErrUnexpectedEOF, other errors pass through. -/
def readNumsHandle (e : Option ReadAtErr) (n : Nat) : Option Err :=
  match e with
  | some .eof => if n = 8 then none else some .unexpectedEOF
  | some .other => some .other
  | none => none

/-- `readNums` (src/cdb.go lines 307-320): read 8 bytes at `pos` and
decode two little-endian uint32 values. -/
def readNums (f : File) (pos : Nat) : Except Err (Nat × Nat) :=
  let r := readAtResult f pos 8
  match readNumsHandle r.2 r.1 with
  | some e => .error e
  | none =>
      .ok (dec32 (byteAt f pos) (byteAt f (pos + 1)) (byteAt f (pos + 2)) (byteAt f (pos + 3)),
           dec32 (byteAt f (pos + 4)) (byteAt f (pos + 5)) (byteAt f (pos + 6)) (byteAt f (pos + 7)))

/-- One uint32 pair decoded in place, used to state `readNums` results. -/
def pairAt (f : File) (pos : Nat) : Nat × Nat :=
  (dec32 (byteAt f pos) (byteAt f (pos + 1)) (byteAt f (pos + 2)) (byteAt f (pos + 3)),
   dec32 (byteAt f (pos + 4)) (byteAt f (pos + 5)) (byteAt f (pos + 6)) (byteAt f (pos + 7)))

/-- The chunked key comparison `match` (src/cdb.go lines 289-305): compare
the key against the file bytes at `pos`, 64 bytes at a time; `n` bytes have
been compared so far.  A short read surfaces the source's io.EOF. -/
def matchChunks (f : File) (key : List Nat) : Nat → Nat → Nat → Except Err Bool
  | _, _, 0 => .error .unexpectedEOF
  | pos, n, fuel + 1 =>
    if n < key.length then
      let chunk := min 64 (key.length - n)
      if pos + chunk ≤ f.length then
        if extract f pos chunk = extract key n chunk then
          matchChunks f key ((pos + chunk) % U32) (n + chunk) fuel
        else .ok false
      else .error .eof
    else .ok true

/-- Entry point of the key comparison; `key.length + 1` chunks always
suffice since every chunk holds at least one byte. -/
def matchKey (f : File) (key : List Nat) (pos : Nat) : Except Err Bool :=
  matchChunks f key pos 0 (key.length + 1)

/-- Modelled from the spec: the hash function `checksum` is called by
`Iterate` (src/cdb.go line 120) but its definition is not among the
sources.  Spec section 4.1: accumulator starts at 5381 and each byte `c`
updates it to `((acc <<< 5) + acc) XOR c`, truncated to 32 bits. -/
def checksum (key : List Nat) : Nat :=
  key.foldl (fun h c => (((h <<< 5) + h) % U32) ^^^ c) 5381

/-- The per-key iterator state (src/cdb.go lines 24-48). -/
structure Iter where
  key : List Nat
  initErr : Option Err
  loop : Nat
  khash : Nat
  kpos : Nat
  hpos : Nat
  hslots : Nat
  dpos : Nat
  dlen : Nat
deriving DecidableEq, Repr

/-- `Iterate` (src/cdb.go lines 115-135): hash the key, read header entry
`khash % 256`, and position the iterator on the first candidate slot. -/
def Iterate (f : File) (key : List Nat) : Iter :=
  let khash := checksum key
  match readNums f (khash % 256 * 8) with
  | .error e =>
      { key, initErr := some e, loop := 0, khash, kpos := 0, hpos := 0, hslots := 0,
        dpos := 0, dlen := 0 }
  | .ok (hpos, hslots) =>
      if hslots = 0 then
        { key, initErr := some .eof, loop := 0, khash, kpos := 0, hpos, hslots,
          dpos := 0, dlen := 0 }
      else
        { key, initErr := none, loop := 0, khash,
          kpos := (hpos + (khash / 256 % hslots) * 8 % U32) % U32, hpos, hslots,
          dpos := 0, dlen := 0 }

/-- The slot-scanning loop of `next` (src/cdb.go lines 177-216), with the
fuel made explicit: `none` means the fuel ran out before the loop settled
(which never happens with fuel `hslots - loop + 1`).  `loop` never
overflows uint32 because it is only incremented while below `hslots`. -/
def nextAux (f : File) : Nat → Iter → Option (Except Err Iter)
  | 0, _ => none
  | fuel + 1, it =>
    if it.hslots ≤ it.loop then some (.error .eof)
    else
      match readNums f it.kpos with
      | .error e => some (.error e)
      | .ok (slotHash, recPos) =>
        if recPos = 0 then some (.error .eof)
        else
          let kposNext := (it.kpos + 8) % U32
          let kposNext := if kposNext = (it.hpos + it.hslots * 8 % U32) % U32 then it.hpos else kposNext
          let it' := { it with loop := it.loop + 1, kpos := kposNext }
          if slotHash ≠ it.khash then nextAux f fuel it'
          else
            match readNums f recPos with
            | .error e => some (.error e)
            | .ok (keyLen, dataLen) =>
              if keyLen ≠ it.key.length % U32 then nextAux f fuel it'
              else
                match matchKey f it.key ((recPos + 8) % U32) with
                | .error e => some (.error e)
                | .ok false => nextAux f fuel it'
                | .ok true => some (.ok { it' with dpos := (recPos + 8 + keyLen) % U32, dlen := dataLen })

/-- `next` (src/cdb.go lines 170-218): report a pending initialisation
error, otherwise scan; at most `hslots - loop` further slots exist, so the
chosen fuel always settles and the default is never used. -/
def next (f : File) (it : Iter) : Except Err Iter :=
  match it.initErr with
  | some e => .error e
  | none => (nextAux f (it.hslots - it.loop + 1) it).getD (.error .eof)

/-- `NextBytes` (src/cdb.go lines 141-153): advance the iterator and read
the value bytes; an EOF from the value read becomes io.ErrUnexpectedEOF. -/
def NextBytes (f : File) (it : Iter) : Except Err (List Nat × Iter) :=
  match next f it with
  | .error e => .error e
  | .ok it' =>
    match (readAtResult f it'.dpos it'.dlen).2 with
    | some .eof => .error .unexpectedEOF
    | some .other => .error .other
    | none => .ok (extract f it'.dpos it'.dlen, it')

/-- Successive `NextBytes` calls: the values yielded before the first
error, and that error.  `none` means the fuel ran out first. -/
def collect (f : File) : Iter → Nat → Option (List (List Nat) × Err)
  | _, 0 => none
  | it, fuel + 1 =>
    match NextBytes f it with
    | .error e => some ([], e)
    | .ok (v, it') =>
      match collect f it' fuel with
      | none => none
      | some (vs, e) => some (v :: vs, e)

/-- `Exists` (src/cdb.go lines 81-90): probe once, absorbing io.EOF as
`false` (named `existsKey` here because `Exists` is taken by the logic). -/
def existsKey (f : File) (key : List Nat) : Except Err Bool :=
  match next f (Iterate f key) with
  | .error .eof => .ok false
  | .error e => .error e
  | .ok _ => .ok true

/-- Loop of `ForEachReader` (src/cdb.go lines 235-249): collect the
(position, length) pairs of the key and value sections of each record
between `pos` and `endPos`. -/
def forEachAux (f : File) (endPos : Nat) : Nat → Nat → Option (Except Err (List ((Nat × Nat) × (Nat × Nat))))
  | _, 0 => none
  | pos, fuel + 1 =>
    if pos < endPos then
      match readNums f pos with
      | .error e => some (.error e)
      | .ok (klen, dlen) =>
        match forEachAux f endPos ((pos + 8 + klen + dlen) % U32) fuel with
        | none => none
        | some (.error e) => some (.error e)
        | some (.ok rest) =>
          some (.ok ((((pos + 8) % U32, klen), ((pos + 8 + klen) % U32, dlen)) :: rest))
    else some (.ok [])

/-- `ForEachReader` (src/cdb.go lines 226-251): the record region starts
at offset 2048 and ends at the position stored in header entry 0; the
callback is modelled by collecting the section bounds it is given. -/
def ForEachReader (f : File) (fuel : Nat) : Option (Except Err (List ((Nat × Nat) × (Nat × Nat)))) :=
  match readNums f 0 with
  | .error e => some (.error e)
  | .ok (endPos, _) => forEachAux f endPos 2048 fuel

/-- io.ReadFull on a section of the file (src/cdb.go lines 274-279): all
bytes present gives the section, nothing gives io.EOF, a strict part gives
io.ErrUnexpectedEOF. -/
def readFullSection (f : File) (pos len : Nat) : Except Err (List Nat) :=
  let av := min len (f.length - min pos f.length)
  if av = len then .ok (extract f pos len)
  else if av = 0 then .error .eof
  else .error .unexpectedEOF

/-- `ForEachBytes` (src/cdb.go lines 261-286): read every section pair of
`ForEachReader` in full. -/
def ForEachBytes (f : File) (fuel : Nat) : Option (Except Err (List (List Nat × List Nat))) :=
  match ForEachReader f fuel with
  | none => none
  | some (.error e) => some (.error e)
  | some (.ok secs) =>
    some ((secs.mapM (fun s => do
      let k ← readFullSection f s.1.1 s.1.2
      let v ← readFullSection f s.2.1 s.2.2
      pure (k, v)) : Except Err _))

/-! ### The streaming adapter (src/writer.go)

The background builder task and the capacity-1 done channel are modelled
by explicit oracle inputs: `recv` is what a non-blocking receive on the
done channel yields (`none` when no value is available), `pipeErr` the
outcome of writing the record to the pipe, `doneErr` the outcome of the
blocking receive in `Close`.  The error type is abstract. -/

/-- The adapter's only piece of state: the captured builder failure. -/
structure WriterState (E : Type) where
  makeErr : Option E
deriving DecidableEq, Repr

/-- `Writer.Write` (src/writer.go lines 31-42).  Returns the new state,
the call's result, and whether a pipe write (I/O) was performed. -/
def writerWrite {E : Type} (w : WriterState E) (recv : Option (Option E)) (pipeErr : Option E) :
    WriterState E × Option E × Bool :=
  let w' : WriterState E := { makeErr := match recv with | some e => e | none => w.makeErr }
  match w'.makeErr with
  | some e => (w', some e, false)
  | none => (w', pipeErr, true)

/-- `Writer.Close` (src/writer.go lines 44-51).  Returns the result and
whether the terminating blank line was pushed and the channel awaited. -/
def writerClose {E : Type} (w : WriterState E) (doneErr : Option E) : Option E × Bool :=
  match w.makeErr with
  | some e => (some e, false)
  | none => (doneErr, true)

/-! ### The table builder, modelled from the spec

`Make` is called by src/writer.go and the tests but is not among the
sources; sections 3 and 4.2 of the spec define it.  The layout is:
a 2048-byte header of 256 little-endian `(position, slot count)` pairs,
the packed record region in write order, then 256 open-addressed
sub-tables of `(hash, record position)` slots, each sub-table holding
twice its bucket's record count, filled by linear probing with
wraparound from slot `(hash / 256) % slot_count`. -/

/-- Modelled from the spec: byte size of one encoded record. -/
def recSize (r : Rec) : Nat := 8 + r.1.length + r.2.length

/-- Modelled from the spec: one record region entry,
`(key_len, value_len, key bytes, value bytes)`. -/
def encodeRec (r : Rec) : List Nat := le32 r.1.length ++ le32 r.2.length ++ r.1 ++ r.2

/-- Modelled from the spec: each record paired with its file position,
records packed from `pos` on with no padding. -/
def layout : Nat → List Rec → List (Nat × Rec)
  | _, [] => []
  | pos, r :: rs => (pos, r) :: layout (pos + recSize r) rs

/-- Modelled from the spec: the packed record region. -/
def regionBytes (rs : List Rec) : List Nat := (rs.map encodeRec).flatten

/-- Modelled from the spec: the file position right after the last record,
where the first sub-table begins. -/
def endRecords (rs : List Rec) : Nat := 2048 + (regionBytes rs).length

/-- Modelled from the spec: the records of hash bucket `b` with their
positions, in arrival order. -/
def bucketRecs (rs : List Rec) (b : Nat) : List (Nat × Rec) :=
  (layout 2048 rs).filter (fun pr => checksum pr.2.1 % 256 = b)

/-- Modelled from the spec: the `(hash, record position)` entries of
bucket `b`, in arrival order. -/
def bucketEntries (rs : List Rec) (b : Nat) : List (Nat × Nat) :=
  (bucketRecs rs b).map (fun pr => (checksum pr.2.1, pr.1))

/-- Modelled from the spec: the cyclic distance from a probe start to the
first empty slot (`record position = 0`) of the sub-table, if any. -/
def probeFind (T : List (Nat × Nat)) (s : Nat) : Option Nat :=
  (List.range T.length).find? (fun d => decide ((T.getD ((s + d) % T.length) (0, 0)).2 = 0))

/-- Modelled from the spec: place one entry by linear probing with
wraparound from slot `(hash / 256) % slot_count`. -/
def insEntry (T : List (Nat × Nat)) (e : Nat × Nat) : List (Nat × Nat) :=
  match probeFind T (e.1 / 256 % T.length) with
  | some d => T.set ((e.1 / 256 % T.length + d) % T.length) e
  | none => T

/-- Modelled from the spec: a sub-table of `cnt` slots, all initially
empty, filled with the bucket's entries in arrival order. -/
def buildTable (es : List (Nat × Nat)) (cnt : Nat) : List (Nat × Nat) :=
  es.foldl insEntry (List.replicate cnt (0, 0))

/-- Modelled from the spec: the finished sub-table of bucket `b`, sized to
twice the bucket's record count. -/
def tableFor (rs : List Rec) (b : Nat) : List (Nat × Nat) :=
  buildTable (bucketEntries rs b) (2 * (bucketEntries rs b).length)

/-- Modelled from the spec: a sub-table serialised slot by slot, each slot
an eight-byte `(hash, record position)` pair. -/
def encodeSlots (T : List (Nat × Nat)) : List Nat :=
  (T.map (fun e => le32 e.1 ++ le32 e.2)).flatten

/-- Modelled from the spec: the file position of sub-table `b`; sub-tables
sit immediately after the records, in bucket order. -/
def subPos (rs : List Rec) (b : Nat) : Nat :=
  endRecords rs + 16 * ((List.range b).map (fun c => (bucketEntries rs c).length)).sum

/-- Modelled from the spec: the 2048-byte header of 256 little-endian
`(sub-table position, slot count)` pairs. -/
def headerBytes (rs : List Rec) : List Nat :=
  ((List.range 256).map (fun b => le32 (subPos rs b) ++ le32 (2 * (bucketEntries rs b).length))).flatten

/-- Modelled from the spec: the complete database file produced by the
builder `Make` for a given record stream. -/
def build (rs : List Rec) : File :=
  headerBytes rs ++ regionBytes rs ++ ((List.range 256).map (fun b => encodeSlots (tableFor rs b))).flatten

/-- The record `r` is stored at file position `p`: its two length fields
decode there and its key and value bytes follow. -/
def RecordAt (f : File) (p : Nat) (r : Rec) : Prop :=
  readNums f p = .ok (r.1.length, r.2.length) ∧
  extract f (p + 8) r.1.length = bnorm r.1 ∧
  extract f (p + 8 + r.1.length) r.2.length = bnorm r.2

/-- The size of the built file, computed directly from the record stream:
2048 header bytes, the packed records, and 16 bytes of sub-table slots per
record. -/
def buildSize (rs : List Rec) : Nat := 2048 + (rs.map recSize).sum + 16 * rs.length

/-- The probe start of a slot entry in a table of `len` slots. -/
def stVal (len : Nat) (x : Nat × Nat) : Nat := x.1 / 256 % len

/-! ### The textual interchange format, modelled from the spec

`Dump` and the builder's input parsing are not among the sources; spec
section 6 defines one line per record, `+klen,vlen:key->val` followed by a
newline, the stream terminated by a single blank line. -/

/-- Modelled from the spec: ASCII decimal rendering of a length field. -/
def decimalDigits (n : Nat) : List Nat :=
  if n = 0 then [48] else ((Nat.digits 10 n).map (· + 48)).reverse

/-- Modelled from the spec: one interchange line
`+klen,vlen:key->val` and the trailing newline. -/
def renderRec (r : Rec) : List Nat :=
  43 :: (decimalDigits r.1.length ++ [44] ++ decimalDigits r.2.length ++ [58] ++
    r.1 ++ [45, 62] ++ r.2 ++ [10])

/-- Modelled from the spec: the full interchange stream, terminated by a
blank line. -/
def render (rs : List Rec) : List Nat := (rs.map renderRec).flatten ++ [10]

/-- An ASCII decimal digit. -/
def isDigit (c : Nat) : Bool := decide (48 ≤ c) && decide (c ≤ 57)

/-- Modelled from the spec: greedy decimal parse of a length field. -/
def parseDec (l : List Nat) : Option (Nat × List Nat) :=
  let ds := l.takeWhile isDigit
  if ds = [] then none
  else some (ds.foldl (fun a c => 10 * a + (c - 48)) 0, l.dropWhile isDigit)

/-- Modelled from the spec: parse one interchange record line; the key and
value are read by their declared lengths, so they may hold any bytes. -/
def parseRec (l : List Nat) : Option (Rec × List Nat) :=
  match l with
  | 43 :: r0 =>
    match parseDec r0 with
    | some (klen, r1) =>
      match r1 with
      | 44 :: r2 =>
        match parseDec r2 with
        | some (vlen, r3) =>
          match r3 with
          | 58 :: r4 =>
            let key := r4.take klen
            let r5 := r4.drop klen
            if key.length = klen then
              match r5 with
              | 45 :: 62 :: r6 =>
                let v := r6.take vlen
                let r7 := r6.drop vlen
                if v.length = vlen then
                  match r7 with
                  | 10 :: r8 => some ((key, v), r8)
                  | _ => none
                else none
              | _ => none
            else none
          | _ => none
        | none => none
      | _ => none
    | none => none
  | _ => none

/-- Modelled from the spec: parse the interchange stream until the
terminating blank line. -/
def parseStream : List Nat → Nat → Option (List Rec)
  | _, 0 => none
  | l, fuel + 1 =>
    match l with
    | 10 :: _ => some []
    | _ =>
      match parseRec l with
      | some (r, rest) =>
        match parseStream rest fuel with
        | some rs => some (r :: rs)
        | none => none
      | none => none

/-- Modelled from the spec: the builder's input decoding, one record per
interchange line. -/
def parseAll (l : List Nat) : Option (List Rec) := parseStream l l.length

/-- Modelled from the spec: `Make`, the one-shot batch build from an
interchange stream. -/
def makeDB (stream : List Nat) : Option File := (parseAll stream).map build

/-- Modelled from the spec: `Dump`, the textual export of a database,
obtained by rendering the records of the whole-file traversal. -/
def dump (f : File) (fuel : Nat) : Option (List Nat) :=
  match ForEachBytes f fuel with
  | some (.ok recs) => some (render recs)
  | _ => none

/-! ### Proof scaffolding: an abstract view of the slot scan -/

/-- What the scanning loop does at one slot: stop on an empty slot, skip
it, or yield a value at the given position and length. -/
inductive SlotC where
  | empty
  | skip
  | hit (dpos dlen : Nat)
deriving DecidableEq, Repr

/-- Classification of one slot `(hash, record position)` by the scanning
loop of `next`, for query hash `kh` and query key `k`, assuming the
record reads succeed (which holds on well-formed files). -/
def classify (f : File) (kh : Nat) (k : List Nat) (x : Nat × Nat) : SlotC :=
  if x.2 = 0 then .empty
  else if x.1 ≠ kh then .skip
  else
    match readNums f x.2 with
    | .error _ => .skip
    | .ok (klen, dlen) =>
      if klen ≠ k.length % U32 then .skip
      else
        match matchKey f k ((x.2 + 8) % U32) with
        | .ok true => .hit ((x.2 + 8 + klen) % U32) dlen
        | _ => .skip

/-- The payload of a hit, if any. -/
def hitInfo (f : File) (kh : Nat) (k : List Nat) (x : Nat × Nat) : Option (Nat × Nat) :=
  match classify f kh k x with
  | .hit dp dl => some (dp, dl)
  | _ => none

/-- The iterator state after `d` scan steps from start slot `s`, with
current data position `dp` and length `dl`. -/
def stateFor (k : List Nat) (kh hpos len s d dp dl : Nat) : Iter :=
  { key := k, initErr := none, loop := d, khash := kh,
    kpos := hpos + 8 * ((s + d) % len), hpos := hpos, hslots := len,
    dpos := dp, dlen := dl }

/-- Abstract form of one `next` call: from scan step `d`, the result is
exhaustion (`some none`), a yield with its new step and payload
(`some (some _)`), or fuel exhaustion (`none`). -/
def absNext (view : Nat → SlotC) (len : Nat) : Nat → Nat → Option (Option (Nat × Nat × Nat))
  | _, 0 => none
  | d, fuel + 1 =>
    if len ≤ d then some none
    else
      match view d with
      | .empty => some none
      | .skip => absNext view len (d + 1) fuel
      | .hit dp dl => some (some (d + 1, dp, dl))

/-- Abstract form of the whole multi-call scan from step `d`: the payloads
of all hits before the first empty slot (or the end of the budget). -/
def absYields (view : Nat → SlotC) (len : Nat) : Nat → Nat → List (Nat × Nat)
  | _, 0 => []
  | d, fuel + 1 =>
    if len ≤ d then []
    else
      match view d with
      | .empty => []
      | .skip => absYields view len (d + 1) fuel
      | .hit dp dl => (dp, dl) :: absYields view len (d + 1) fuel

/-- The slots visited by a scan from start `s`: the cyclic probe sequence
up to the first empty slot. -/
def probeSeq (T : List (Nat × Nat)) (s : Nat) : List (Nat × Nat) :=
  ((List.range T.length).map (fun d => T.getD ((s + d) % T.length) (0, 0))).takeWhile
    (fun x => decide (x.2 ≠ 0))

/-- The slot at index `j` of a sub-table, empty slots read as `(0, 0)`. -/
def slotD (T : List (Nat × Nat)) (j : Nat) : Nat × Nat := T.getD j (0, 0)

/-- Occupied slots of a sub-table. -/
def occCount (T : List (Nat × Nat)) : Nat := (T.filter (fun x => decide (x.2 ≠ 0))).length

/-- The probe-run invariant of linear probing: every occupied slot whose
probe start is `s` has no empty slot strictly between `s` and it in cyclic
order. -/
def Reach (T : List (Nat × Nat)) (len s : Nat) : Prop :=
  ∀ d d', d' < d → d < len → (slotD T ((s + d) % len)).2 ≠ 0 →
    stVal len (slotD T ((s + d) % len)) = s →
    (slotD T ((s + d') % len)).2 ≠ 0

/-- The well-formedness facts about one sub-table region that the scan
simulation needs: the sub-table of `len` slots at file position `hpos`
decodes slot `j` to `Tslot j`, occupied slots with the query hash point at
decodable records, and every hit's data section lies inside the file. -/
structure ScanCtx (f : File) (k : List Nat) (kh hpos len s : Nat) (Tslot : Nat → Nat × Nat) : Prop where
  len_pos : 0 < len
  s_lt : s < len
  bound : hpos + 8 * len ≤ f.length
  fsize : f.length < U32
  slot_read : ∀ j, j < len → readNums f (hpos + 8 * j) = .ok (Tslot j)
  rec_read : ∀ j, j < len → (Tslot j).2 ≠ 0 → (Tslot j).1 = kh →
    ∃ klen dlen, readNums f (Tslot j).2 = .ok (klen, dlen) ∧
      (klen = k.length % U32 → ∃ bres, matchKey f k (((Tslot j).2 + 8) % U32) = .ok bres)
  hit_ok : ∀ i dp dl, i < len → classify f kh k (Tslot i) = .hit dp dl →
    dp < f.length ∧ dp + dl ≤ f.length

/-! ### Byte-level decode lemmas -/

theorem readNums_eq (f : File) (pos : Nat) :
    readNums f pos = if pos + 8 ≤ f.length then .ok (pairAt f pos) else .error .unexpectedEOF := by
  unfold readNums readAtResult readNumsHandle
  by_cases h1 : f.length ≤ pos
  · have h2 : ¬ (pos + 8 ≤ f.length) := by omega
    simp [h1, h2]
  · by_cases h2 : pos + 8 ≤ f.length
    · simp [h1, h2, pairAt]
    · have h3 : f.length - pos ≠ 8 := by omega
      simp [h1, h2, h3]

theorem extract_length (f : File) (pos len : Nat) :
    (extract f pos len).length = min len (f.length - pos) := by
  simp [extract, bnorm]

theorem extract_add (f : File) (pos a b : Nat) :
    extract f pos (a + b) = extract f pos a ++ extract f (pos + a) b := by
  unfold extract bnorm
  rw [List.take_add, List.map_append, List.drop_drop]

theorem getD_extract (f : File) (pos len i : Nat) (h1 : i < len) (h2 : pos + i < f.length) :
    (extract f pos len).getD i 0 = byteAt f (pos + i) := by
  unfold extract bnorm byteAt
  have htake : i < ((f.drop pos).take len).length := by
    rw [List.length_take, List.length_drop]; omega
  have hmap : i < (((f.drop pos).take len).map (· % 256)).length := by
    simpa using htake
  rw [List.getD_eq_getElem _ _ hmap, List.getElem_map, List.getElem_take, List.getElem_drop]
  rw [List.getD_eq_getElem _ _ (by omega : pos + i < f.length)]

theorem dec32_le32 (a : Nat) (h : a < U32) :
    dec32 (a % 256) (a / 256 % 256) (a / 65536 % 256) (a / 16777216 % 256) = a := by
  unfold dec32 U32 at *
  omega

theorem pairAt_of_extract (f : File) (pos a b : Nat) (ha : a < U32) (hb : b < U32)
    (hlen : pos + 8 ≤ f.length) (hx : extract f pos 8 = le32 a ++ le32 b) :
    pairAt f pos = (a, b) := by
  have hb0 := getD_extract f pos 8 0 (by omega) (by omega)
  have hb1 := getD_extract f pos 8 1 (by omega) (by omega)
  have hb2 := getD_extract f pos 8 2 (by omega) (by omega)
  have hb3 := getD_extract f pos 8 3 (by omega) (by omega)
  have hb4 := getD_extract f pos 8 4 (by omega) (by omega)
  have hb5 := getD_extract f pos 8 5 (by omega) (by omega)
  have hb6 := getD_extract f pos 8 6 (by omega) (by omega)
  have hb7 := getD_extract f pos 8 7 (by omega) (by omega)
  rw [hx] at hb0 hb1 hb2 hb3 hb4 hb5 hb6 hb7
  simp [le32, List.getD] at hb0 hb1 hb2 hb3 hb4 hb5 hb6 hb7
  unfold pairAt
  rw [← hb0, ← hb1, ← hb2, ← hb3, ← hb4, ← hb5, ← hb6, ← hb7]
  rw [dec32_le32 a ha, dec32_le32 b hb]

theorem readNums_of_extract (f : File) (pos a b : Nat) (ha : a < U32) (hb : b < U32)
    (hlen : pos + 8 ≤ f.length) (hx : extract f pos 8 = le32 a ++ le32 b) :
    readNums f pos = .ok (a, b) := by
  rw [readNums_eq, if_pos hlen, pairAt_of_extract f pos a b ha hb hlen hx]

theorem bnorm_eq_self (l : List Nat) (h : ByteOk l) : bnorm l = l := by
  unfold bnorm
  conv_rhs => rw [← List.map_id l]
  exact List.map_congr_left (fun b hb => Nat.mod_eq_of_lt (h b hb))

theorem U32_pos : 0 < U32 := by unfold U32; omega

/-! ### Claim C3: the scan always settles within the slot budget -/

theorem nextAux_isSome (f : File) : ∀ (fuel : Nat) (it : Iter), it.hslots - it.loop < fuel →
    (nextAux f fuel it).isSome := by
  intro fuel
  induction fuel with
  | zero => intro it h; omega
  | succ n ih =>
    intro it h
    unfold nextAux
    by_cases hle : it.hslots ≤ it.loop
    · simp [hle]
    · rw [if_neg hle]
      cases hr : readNums f it.kpos with
      | error e => simp
      | ok p =>
        obtain ⟨slotHash, recPos⟩ := p
        dsimp only
        by_cases hz : recPos = 0
        · simp [hz]
        · rw [if_neg hz]
          by_cases hsh : slotHash ≠ it.khash
          · rw [if_pos hsh]
            exact ih _ (by dsimp only; omega)
          · rw [if_neg hsh]
            cases readNums f recPos with
            | error e => simp
            | ok q =>
              obtain ⟨keyLen, dataLen⟩ := q
              dsimp only
              by_cases hkl : keyLen ≠ it.key.length % U32
              · rw [if_pos hkl]
                exact ih _ (by dsimp only; omega)
              · rw [if_neg hkl]
                cases matchKey f it.key ((recPos + 8) % U32) with
                | error e => simp
                | ok m => cases m with
                  | true => simp
                  | false =>
                    dsimp only
                    exact ih _ (by dsimp only; omega)

/-- Claim C3: every `next` call settles after inspecting at most
`hslots - loop` further slots — in particular at most `hslots` in all —
because the loop counter rises every iteration and the scan stops as soon
as `loop` reaches `hslots` or an empty slot is read; this holds for any
file contents whatsoever, so `next`'s fuel of `hslots - loop + 1` always
suffices and its fallback branch is dead code. -/
theorem c3_next_terminates (f : File) (it : Iter) :
    (nextAux f (it.hslots - it.loop + 1) it).isSome = true := by
  exact nextAux_isSome f _ it (by omega)

/-! ### Claim C9: short reads of fixed-size fields -/

/-- Claim C9: when `readNums` decodes a fixed 8-byte field, a short read
is surfaced as io.ErrUnexpectedEOF — a different signal from the io.EOF
used for exhaustion — and never as exhaustion; the only tolerated EOF is
one that delivered exactly the full 8 bytes, stopping at the data
boundary. -/
theorem c9_short_reads_are_unexpected_eof :
    (∀ n, n ≠ 8 → readNumsHandle (some .eof) n = some .unexpectedEOF) ∧
    (readNumsHandle (some .eof) 8 = none) ∧
    (∀ e, readNumsHandle (some .eof) e ≠ some .eof) ∧
    (∀ f pos, f.length < pos + 8 → readNums f pos = .error .unexpectedEOF) ∧
    (∀ f pos, pos + 8 ≤ f.length → readNums f pos = .ok (pairAt f pos)) := by
  refine ⟨?_, ?_, ?_, ?_, ?_⟩
  · intro n hn
    simp [readNumsHandle, hn]
  · simp [readNumsHandle]
  · intro e
    simp only [readNumsHandle]
    split <;> simp
  · intro f pos h
    rw [readNums_eq, if_neg (by omega)]
  · intro f pos h
    rw [readNums_eq, if_pos h]

theorem c9_witness :
    readNumsHandle (some .eof) 7 = some .unexpectedEOF ∧
    readNums [0, 1, 2] 0 = .error .unexpectedEOF ∧
    readNums [1, 0, 0, 0, 2, 0, 0, 0] 0 = .ok (pairAt [1, 0, 0, 0, 2, 0, 0, 0] 0) :=
  ⟨c9_short_reads_are_unexpected_eof.1 7 (by decide),
   c9_short_reads_are_unexpected_eof.2.2.2.1 [0, 1, 2] 0 (by decide),
   c9_short_reads_are_unexpected_eof.2.2.2.2 [1, 0, 0, 0, 2, 0, 0, 0] 0 (by decide)⟩

/-! ### Claim C4: iterator initialisation -/

theorem Iterate_error (f : File) (k : List Nat) (e : Err)
    (h : readNums f (checksum k % 256 * 8) = .error e) :
    Iterate f k = { key := k, initErr := some e, loop := 0, khash := checksum k,
                    kpos := 0, hpos := 0, hslots := 0, dpos := 0, dlen := 0 } := by
  unfold Iterate
  dsimp only
  rw [h]

theorem Iterate_ok_zero (f : File) (k : List Nat) (hpos : Nat)
    (h : readNums f (checksum k % 256 * 8) = .ok (hpos, 0)) :
    Iterate f k = { key := k, initErr := some .eof, loop := 0, khash := checksum k,
                    kpos := 0, hpos := hpos, hslots := 0, dpos := 0, dlen := 0 } := by
  unfold Iterate
  dsimp only
  rw [h]
  rfl

theorem Iterate_ok_pos (f : File) (k : List Nat) (hpos hslots : Nat)
    (h : readNums f (checksum k % 256 * 8) = .ok (hpos, hslots)) (h0 : hslots ≠ 0) :
    Iterate f k = { key := k, initErr := none, loop := 0, khash := checksum k,
                    kpos := (hpos + (checksum k / 256 % hslots) * 8) % U32,
                    hpos := hpos, hslots := hslots, dpos := 0, dlen := 0 } := by
  unfold Iterate
  dsimp only
  rw [h]
  dsimp only
  rw [if_neg h0, Nat.add_mod_mod]

/-- Claim C4: `Iterate` hashes the key, reads header entry `khash % 256`
to obtain `(hpos, hslots)`; a zero `hslots` makes the iterator
immediately exhausted, otherwise the initial probe position is
`hpos + ((khash / 256) % hslots) * 8` (in uint32 arithmetic) with the
loop counter at zero before any slot is read. -/
theorem c4_iterate_initialisation (f : File) (k : List Nat) :
    (Iterate f k).khash = checksum k ∧
    (∀ e, readNums f (checksum k % 256 * 8) = .error e → (Iterate f k).initErr = some e) ∧
    (∀ hpos hslots, readNums f (checksum k % 256 * 8) = .ok (hpos, hslots) →
      (Iterate f k).hpos = hpos ∧ (Iterate f k).hslots = hslots ∧
      (hslots = 0 → (Iterate f k).initErr = some .eof) ∧
      (hslots ≠ 0 → (Iterate f k).initErr = none ∧ (Iterate f k).loop = 0 ∧
        (Iterate f k).kpos = (hpos + (checksum k / 256 % hslots) * 8) % U32)) := by
  cases hr : readNums f (checksum k % 256 * 8) with
  | error e =>
    rw [Iterate_error f k e hr]
    refine ⟨rfl, ?_, ?_⟩
    · intro e' he'
      cases he'
      rfl
    · intro hpos hslots h
      cases h
  | ok p =>
    obtain ⟨hpos, hslots⟩ := p
    by_cases h0 : hslots = 0
    · subst h0
      rw [Iterate_ok_zero f k hpos hr]
      refine ⟨rfl, ?_, ?_⟩
      · intro e' he'
        cases he'
      · intro hp hs h
        cases h
        exact ⟨rfl, rfl, fun _ => rfl, fun h' => absurd rfl h'⟩
    · rw [Iterate_ok_pos f k hpos hslots hr h0]
      refine ⟨rfl, ?_, ?_⟩
      · intro e' he'
        cases he'
      · intro hp hs h
        cases h
        exact ⟨rfl, rfl, fun h' => absurd h' h0, fun _ => ⟨rfl, rfl, rfl⟩⟩

theorem c4_witness :
    readNums (List.replicate 40 0 ++ (le32 12 ++ le32 2)) (checksum [] % 256 * 8) = .ok (12, 2) ∧
    (Iterate (List.replicate 40 0 ++ (le32 12 ++ le32 2)) []).kpos = (12 + (checksum [] / 256 % 2) * 8) % U32 :=
  ⟨by decide,
   (((c4_iterate_initialisation (List.replicate 40 0 ++ (le32 12 ++ le32 2)) []).2.2 12 2
      (by decide)).2.2.2 (by decide)).2.2⟩

/-! ### Claim C5: the hash function -/

theorem checksum_lt (key : List Nat) (hok : ByteOk key) : checksum key < U32 := by
  unfold checksum
  have hU : U32 = 2 ^ 32 := by decide
  induction key using List.reverseRecOn with
  | nil => decide
  | append_singleton l c ih =>
    rw [List.foldl_append]
    apply Nat.xor_lt_two_pow (n := 32) ?_ ?_ |>.trans_eq hU.symm
    · rw [← hU]
      exact Nat.mod_lt _ (by decide)
    · have : c < 256 := hok c (by simp)
      omega

/-- Claim C5: the hash used at build and lookup time starts its
accumulator at 5381 and folds each key byte `c` in order with
`((acc <<< 5) + acc) XOR c` truncated to 32 bits, which coincides with
`acc * 33 XOR c` modulo 2^32; it is a pure function of the key and stays
below 2^32 on byte-valued keys. -/
theorem c5_hash_is_djb_xor :
    checksum [] = 5381 ∧
    (∀ key c, checksum (key ++ [c]) = ((checksum key * 33) % U32) ^^^ c) ∧
    (∀ key, checksum key = key.foldl (fun h c => ((h * 33) % U32) ^^^ c) 5381) ∧
    (∀ key, ByteOk key → checksum key < U32) := by
  have hstep : ∀ h c : Nat, (((h <<< 5) + h) % U32) ^^^ c = ((h * 33) % U32) ^^^ c := by
    intro h c
    rw [Nat.shiftLeft_eq]
    norm_num
    ring_nf
  refine ⟨rfl, ?_, ?_, ?_⟩
  · intro key c
    unfold checksum
    rw [List.foldl_append]
    simp [hstep]
  · intro key
    unfold checksum
    exact List.foldl_ext _ _ 5381 (fun a b _ => hstep a b)
  · intro key hok
    exact checksum_lt key hok

theorem c5_witness :
    checksum [111, 110, 101] = 193420161 ∧ checksum [111, 110, 101] < U32 :=
  ⟨by decide, c5_hash_is_djb_xor.2.2.2 [111, 110, 101] (by decide)⟩

/-! ### Claim C8: streaming adapter failure latching -/

/-- Claim C8: if the background builder task fails, the failure delivered
on the done channel is captured by the next `Write` (or by `Close`) and
returned; once captured, the state's `makeErr` is permanent, so every
further `Write` returns that same failure without touching the pipe, and
`Close` returns it without writing the terminator. -/
theorem c8_writer_failure_latches {E : Type} (w : WriterState E) (e : E) (pipeErr doneErr : Option E) :
    (writerWrite w (some (some e)) pipeErr = (⟨some e⟩, some e, false)) ∧
    (w.makeErr = some e → writerWrite w none pipeErr = (w, some e, false)) ∧
    (w.makeErr = some e → writerClose w doneErr = (some e, false)) := by
  refine ⟨rfl, ?_, ?_⟩
  · intro h
    cases w
    simp at h
    subst h
    rfl
  · intro h
    unfold writerClose
    rw [h]

theorem c8_witness :
    writerWrite (E := Nat) ⟨none⟩ (some (some 7)) none = (⟨some 7⟩, some 7, false) ∧
    writerWrite (E := Nat) ⟨some 7⟩ none none = (⟨some 7⟩, some 7, false) ∧
    writerClose (E := Nat) ⟨some 7⟩ none = (some 7, false) :=
  ⟨(c8_writer_failure_latches ⟨none⟩ 7 none none).1,
   (c8_writer_failure_latches ⟨some 7⟩ 7 none none).2.1 rfl,
   (c8_writer_failure_latches ⟨some 7⟩ 7 none none).2.2 rfl⟩

/-! ### The chunked key comparison -/

theorem extract_zero (f : File) (pos : Nat) : extract f pos 0 = [] := rfl

theorem extract_all (l : List Nat) : extract l 0 l.length = bnorm l := by
  unfold extract
  rw [List.drop_zero, List.take_length]

theorem matchChunks_spec (f : File) (k : List Nat) :
    ∀ (fuel n pos : Nat), k.length - n < fuel → pos + (k.length - n) ≤ f.length →
      f.length < U32 →
      matchChunks f k pos n fuel =
        .ok (decide (extract f pos (k.length - n) = extract k n (k.length - n))) := by
  intro fuel
  induction fuel with
  | zero => intro n pos h1 _ _; omega
  | succ m ih =>
    intro n pos h1 h2 h3
    unfold matchChunks
    by_cases hn : n < k.length
    · rw [if_pos hn]
      have hch1 : 1 ≤ min 64 (k.length - n) := by omega
      have hchle : min 64 (k.length - n) ≤ k.length - n := by omega
      have hb : pos + min 64 (k.length - n) ≤ f.length := by omega
      rw [if_pos hb]
      have hrest : k.length - n = min 64 (k.length - n) + (k.length - (n + min 64 (k.length - n))) := by
        omega
      have hsplitf : extract f pos (k.length - n) =
          extract f pos (min 64 (k.length - n)) ++
            extract f (pos + min 64 (k.length - n)) (k.length - (n + min 64 (k.length - n))) := by
        conv_lhs => rw [hrest]
        exact extract_add f pos _ _
      have hsplitk : extract k n (k.length - n) =
          extract k n (min 64 (k.length - n)) ++
            extract k (n + min 64 (k.length - n)) (k.length - (n + min 64 (k.length - n))) := by
        conv_lhs => rw [hrest]
        exact extract_add k n _ _
      by_cases heq : extract f pos (min 64 (k.length - n)) = extract k n (min 64 (k.length - n))
      · rw [if_pos heq]
        have hmod : (pos + min 64 (k.length - n)) % U32 = pos + min 64 (k.length - n) :=
          Nat.mod_eq_of_lt (by omega)
        rw [hmod, ih (n + min 64 (k.length - n)) (pos + min 64 (k.length - n)) (by omega) (by omega) h3]
        congr 1
        apply decide_eq_decide.mpr
        rw [hsplitf, hsplitk, heq]
        exact ⟨fun h => by rw [h], fun h => List.append_cancel_left h⟩
      · rw [if_neg heq]
        have hne : ¬ (extract f pos (k.length - n) = extract k n (k.length - n)) := by
          rw [hsplitf, hsplitk]
          intro hcon
          have hlenf : (extract f pos (min 64 (k.length - n))).length = min 64 (k.length - n) := by
            rw [extract_length]; omega
          have hlenk : (extract k n (min 64 (k.length - n))).length = min 64 (k.length - n) := by
            rw [extract_length]; omega
          exact heq (List.append_inj hcon (by rw [hlenf, hlenk])).1
        simp [hne]
    · rw [if_neg hn]
      have h0 : k.length - n = 0 := by omega
      rw [h0]
      simp [extract_zero]

theorem matchKey_spec (f : File) (k : List Nat) (pos : Nat)
    (h2 : pos + k.length ≤ f.length) (h3 : f.length < U32) :
    matchKey f k pos = .ok (decide (extract f pos k.length = bnorm k)) := by
  unfold matchKey
  rw [matchChunks_spec f k (k.length + 1) 0 pos (by omega) (by omega) h3]
  congr 1
  apply decide_eq_decide.mpr
  rw [Nat.sub_zero, extract_all]

theorem matchChunks_true (f : File) (k : List Nat) :
    ∀ (fuel n pos : Nat), f.length < U32 → matchChunks f k pos n fuel = .ok true →
      extract f pos (k.length - n) = extract k n (k.length - n) := by
  intro fuel
  induction fuel with
  | zero => intro n pos _ h; simp [matchChunks] at h
  | succ m ih =>
    intro n pos h3 h
    unfold matchChunks at h
    by_cases hn : n < k.length
    · rw [if_pos hn] at h
      by_cases hb : pos + min 64 (k.length - n) ≤ f.length
      · rw [if_pos hb] at h
        by_cases heq : extract f pos (min 64 (k.length - n)) = extract k n (min 64 (k.length - n))
        · rw [if_pos heq] at h
          have hmod : (pos + min 64 (k.length - n)) % U32 = pos + min 64 (k.length - n) :=
            Nat.mod_eq_of_lt (by omega)
          rw [hmod] at h
          have hrec := ih _ _ h3 h
          have hrest : k.length - n =
              min 64 (k.length - n) + (k.length - (n + min 64 (k.length - n))) := by omega
          conv_lhs => rw [hrest]
          conv_rhs => rw [hrest]
          rw [extract_add, extract_add, heq, hrec]
        · rw [if_neg heq] at h
          cases h
      · rw [if_neg hb] at h
        cases h
    · have h0 : k.length - n = 0 := by omega
      rw [h0, extract_zero, extract_zero]

theorem matchKey_true (f : File) (k : List Nat) (pos : Nat) (h3 : f.length < U32)
    (h : matchKey f k pos = .ok true) : extract f pos k.length = bnorm k := by
  have := matchChunks_true f k (k.length + 1) 0 pos h3 h
  rw [Nat.sub_zero, extract_all] at this
  exact this

/-! ### Modular cycle helpers -/

theorem succ_mod_eq (a n : Nat) (hn : 0 < n) :
    (a + 1) % n = if a % n + 1 = n then 0 else a % n + 1 := by
  conv_lhs => rw [← Nat.mod_add_mod]
  by_cases h : a % n + 1 = n
  · rw [if_pos h, h, Nat.mod_self]
  · rw [if_neg h]
    exact Nat.mod_eq_of_lt (by have := Nat.mod_lt a hn; omega)

theorem shift_mod_cancel (len s d : Nat) (hs : s < len) (hd : d < len) :
    ((s + d) % len + len - s) % len = d := by
  have h0 : (s + d) % len + len - s = (s + d) % len + (len - s) := by omega
  rw [h0, Nat.mod_add_mod]
  have h1 : s + d + (len - s) = d + len := by omega
  rw [h1, Nat.add_mod_right]
  exact Nat.mod_eq_of_lt hd

theorem shift_mod_inj (len s d d' : Nat) (hs : s < len) (hd : d < len) (hd' : d' < len)
    (h : (s + d) % len = (s + d') % len) : d = d' := by
  have h1 := shift_mod_cancel len s d hs hd
  have h2 := shift_mod_cancel len s d' hs hd'
  rw [← h1, ← h2, h]

theorem cycle_inv (len s j : Nat) (hs : s < len) (hj : j < len) :
    (s + (j + len - s) % len) % len = j ∧ (j + len - s) % len < len := by
  constructor
  · rw [Nat.add_mod_mod]
    have h1 : s + (j + len - s) = j + len := by omega
    rw [h1, Nat.add_mod_right]
    exact Nat.mod_eq_of_lt hj
  · exact Nat.mod_lt _ (by omega)

/-! ### Slot classification facts -/

theorem classify_empty (f : File) (kh : Nat) (k : List Nat) (x : Nat × Nat) (hz : x.2 = 0) :
    classify f kh k x = .empty := by
  unfold classify
  rw [if_pos hz]

theorem classify_skip_hash (f : File) (kh : Nat) (k : List Nat) (x : Nat × Nat)
    (hz : x.2 ≠ 0) (hne : x.1 ≠ kh) : classify f kh k x = .skip := by
  unfold classify
  rw [if_neg hz, if_pos hne]

theorem classify_skip_klen (f : File) (kh : Nat) (k : List Nat) (x : Nat × Nat)
    (hz : x.2 ≠ 0) (hh : ¬ x.1 ≠ kh) (klen dlen : Nat)
    (hrn : readNums f x.2 = .ok (klen, dlen)) (hkl : klen ≠ k.length % U32) :
    classify f kh k x = .skip := by
  unfold classify
  rw [if_neg hz, if_neg hh, hrn]
  dsimp only
  rw [if_pos hkl]

theorem classify_skip_nomatch (f : File) (kh : Nat) (k : List Nat) (x : Nat × Nat)
    (hz : x.2 ≠ 0) (hh : ¬ x.1 ≠ kh) (klen dlen : Nat)
    (hrn : readNums f x.2 = .ok (klen, dlen)) (hkl : ¬ klen ≠ k.length % U32)
    (hm : matchKey f k ((x.2 + 8) % U32) = .ok false) :
    classify f kh k x = .skip := by
  unfold classify
  rw [if_neg hz, if_neg hh, hrn]
  dsimp only
  rw [if_neg hkl, hm]

theorem classify_hit_eq (f : File) (kh : Nat) (k : List Nat) (x : Nat × Nat)
    (hz : x.2 ≠ 0) (hh : ¬ x.1 ≠ kh) (klen dlen : Nat)
    (hrn : readNums f x.2 = .ok (klen, dlen)) (hkl : ¬ klen ≠ k.length % U32)
    (hm : matchKey f k ((x.2 + 8) % U32) = .ok true) :
    classify f kh k x = .hit ((x.2 + 8 + klen) % U32) dlen := by
  unfold classify
  rw [if_neg hz, if_neg hh, hrn]
  dsimp only
  rw [if_neg hkl, hm]

/-! ### The scan simulation -/

theorem kposNext_eq (hpos len s d : Nat) (hlen : 0 < len)
    (hb : hpos + 8 * len < U32) :
    (if (hpos + 8 * ((s + d) % len) + 8) % U32 = (hpos + len * 8 % U32) % U32 then hpos
     else (hpos + 8 * ((s + d) % len) + 8) % U32) = hpos + 8 * ((s + (d + 1)) % len) := by
  have hmd : (s + d) % len < len := Nat.mod_lt _ hlen
  have h1 : (hpos + 8 * ((s + d) % len) + 8) % U32 = hpos + 8 * ((s + d) % len) + 8 :=
    Nat.mod_eq_of_lt (by omega)
  have h2 : (hpos + len * 8 % U32) % U32 = hpos + len * 8 := by
    rw [Nat.add_mod_mod]
    exact Nat.mod_eq_of_lt (by omega)
  rw [h1, h2]
  have hassoc : s + (d + 1) = s + d + 1 := by omega
  rw [hassoc, succ_mod_eq (s + d) len hlen]
  by_cases hw : (s + d) % len + 1 = len
  · rw [if_pos (by omega), if_pos hw]
    simp
  · rw [if_neg (by omega), if_neg hw]
    omega

theorem scan_sim (f : File) (k : List Nat) (kh hpos len s : Nat) (Tslot : Nat → Nat × Nat)
    (ctx : ScanCtx f k kh hpos len s Tslot) :
    ∀ (fuel d dp dl : Nat),
      nextAux f fuel (stateFor k kh hpos len s d dp dl) =
        (absNext (fun i => classify f kh k (Tslot ((s + i) % len))) len d fuel).map
          (fun r =>
            match r with
            | none => Except.error Err.eof
            | some (d', p, l) => Except.ok (stateFor k kh hpos len s d' p l)) := by
  intro fuel
  induction fuel with
  | zero => intro d dp dl; rfl
  | succ m ih =>
    intro d dp dl
    unfold nextAux absNext
    dsimp only [stateFor]
    by_cases hdl : len ≤ d
    · rw [if_pos hdl, if_pos hdl]
      rfl
    · rw [if_neg hdl, if_neg hdl]
      have hd' : d < len := by omega
      have hmd : (s + d) % len < len := Nat.mod_lt _ ctx.len_pos
      rw [ctx.slot_read _ hmd]
      rcases hslot : Tslot ((s + d) % len) with ⟨xh, xp⟩
      dsimp only
      rw [kposNext_eq hpos len s d ctx.len_pos (by have h1 := ctx.bound; have h2 := ctx.fsize; omega)]
      by_cases hz : xp = 0
      · rw [if_pos hz, classify_empty f kh k (xh, xp) hz]
        rfl
      · rw [if_neg hz]
        by_cases hsh : xh ≠ kh
        · rw [if_pos hsh, classify_skip_hash f kh k (xh, xp) hz hsh]
          exact ih (d + 1) dp dl
        · rw [if_neg hsh]
          obtain ⟨klen, dlen, hrn, hmk⟩ :=
            ctx.rec_read ((s + d) % len) hmd (by rw [hslot]; exact hz)
              (by rw [hslot]; exact not_not.mp hsh)
          rw [hslot] at hrn hmk
          rw [hrn]
          dsimp only
          by_cases hkl : klen ≠ k.length % U32
          · rw [if_pos hkl, classify_skip_klen f kh k (xh, xp) hz hsh klen dlen hrn hkl]
            exact ih (d + 1) dp dl
          · rw [if_neg hkl]
            obtain ⟨bres, hbm⟩ := hmk (not_not.mp hkl)
            rw [hbm]
            cases bres with
            | false =>
              rw [classify_skip_nomatch f kh k (xh, xp) hz hsh klen dlen hrn hkl hbm]
              exact ih (d + 1) dp dl
            | true =>
              rw [classify_hit_eq f kh k (xh, xp) hz hsh klen dlen hrn hkl hbm]
              rfl

/-! ### From single scan steps to the full yield sequence -/

theorem absNext_yields (view : Nat → SlotC) (len : Nat) :
    ∀ n d, len - d ≤ n →
      (absYields view len d (len - d) = [] → absNext view len d (len - d + 1) = some none) ∧
      (∀ dp dl rest, absYields view len d (len - d) = (dp, dl) :: rest →
        ∃ d', d < d' ∧ d' ≤ len ∧
          absNext view len d (len - d + 1) = some (some (d', dp, dl)) ∧
          absYields view len d' (len - d') = rest ∧
          ∃ i, d ≤ i ∧ i < len ∧ view i = .hit dp dl) := by
  intro n
  induction n with
  | zero =>
    intro d h
    have h0 : len - d = 0 := by omega
    rw [h0]
    constructor
    · intro _
      unfold absNext
      rw [if_pos (by omega)]
    · intro dp dl rest hcon
      cases hcon
  | succ m ih =>
    intro d h
    by_cases hdl : len ≤ d
    · have h0 : len - d = 0 := by omega
      rw [h0]
      constructor
      · intro _
        unfold absNext
        rw [if_pos hdl]
      · intro dp dl rest hcon
        cases hcon
    · have hfd : len - d = (len - (d + 1)) + 1 := by omega
      rw [hfd]
      constructor
      · intro hy
        unfold absYields at hy
        rw [if_neg hdl] at hy
        unfold absNext
        rw [if_neg hdl]
        cases hv : view d with
        | empty => rfl
        | skip =>
          rw [hv] at hy
          dsimp only at hy
          exact (ih (d + 1) (by omega)).1 hy
        | hit dp dl =>
          rw [hv] at hy
          cases hy
      · intro dp dl rest hy
        unfold absYields at hy
        rw [if_neg hdl] at hy
        unfold absNext
        rw [if_neg hdl]
        cases hv : view d with
        | empty =>
          rw [hv] at hy
          cases hy
        | skip =>
          rw [hv] at hy
          dsimp only at hy
          obtain ⟨d', hd1, hd2, hn, hrest, i, hi1, hi2, hi3⟩ := (ih (d + 1) (by omega)).2 dp dl rest hy
          exact ⟨d', by omega, hd2, hn, hrest, i, by omega, hi2, hi3⟩
        | hit p l =>
          rw [hv] at hy
          dsimp only at hy
          cases hy
          refine ⟨d + 1, by omega, by omega, rfl, ?_, d, le_refl d, by omega, hv⟩
          rfl

theorem next_eof (f : File) (k : List Nat) (kh hpos len s : Nat) (Tslot : Nat → Nat × Nat)
    (ctx : ScanCtx f k kh hpos len s Tslot) (d dp dl : Nat)
    (h : absNext (fun i => classify f kh k (Tslot ((s + i) % len))) len d (len - d + 1) = some none) :
    next f (stateFor k kh hpos len s d dp dl) = .error .eof := by
  unfold next
  rw [show (stateFor k kh hpos len s d dp dl).initErr = none from rfl,
    show (stateFor k kh hpos len s d dp dl).hslots = len from rfl,
    show (stateFor k kh hpos len s d dp dl).loop = d from rfl]
  dsimp only
  rw [scan_sim f k kh hpos len s Tslot ctx (len - d + 1) d dp dl, h]
  rfl

theorem next_hit (f : File) (k : List Nat) (kh hpos len s : Nat) (Tslot : Nat → Nat × Nat)
    (ctx : ScanCtx f k kh hpos len s Tslot) (d dp dl d' p l : Nat)
    (h : absNext (fun i => classify f kh k (Tslot ((s + i) % len))) len d (len - d + 1) =
      some (some (d', p, l))) :
    next f (stateFor k kh hpos len s d dp dl) = .ok (stateFor k kh hpos len s d' p l) := by
  unfold next
  rw [show (stateFor k kh hpos len s d dp dl).initErr = none from rfl,
    show (stateFor k kh hpos len s d dp dl).hslots = len from rfl,
    show (stateFor k kh hpos len s d dp dl).loop = d from rfl]
  dsimp only
  rw [scan_sim f k kh hpos len s Tslot ctx (len - d + 1) d dp dl, h]
  rfl

theorem collect_sim (f : File) (k : List Nat) (kh hpos len s : Nat) (Tslot : Nat → Nat × Nat)
    (ctx : ScanCtx f k kh hpos len s Tslot) :
    ∀ (n d dp dl fuel : Nat), len - d ≤ n →
      (absYields (fun i => classify f kh k (Tslot ((s + i) % len))) len d (len - d)).length + 1 ≤ fuel →
      collect f (stateFor k kh hpos len s d dp dl) fuel =
        some ((absYields (fun i => classify f kh k (Tslot ((s + i) % len))) len d (len - d)).map
          (fun p => extract f p.1 p.2), .eof) := by
  intro n
  induction n with
  | zero =>
    intro d dp dl fuel hn hf
    have h0 : len - d = 0 := by omega
    rw [h0] at hf ⊢
    obtain ⟨fl, rfl⟩ : ∃ fl, fuel = fl + 1 := ⟨fuel - 1, by omega⟩
    unfold collect NextBytes
    rw [next_eof f k kh hpos len s Tslot ctx d dp dl ?hnext]
    case hnext =>
      refine (absNext_yields (fun i => classify f kh k (Tslot ((s + i) % len))) len 0 d (by omega)).1 ?_
      rw [h0]
      rfl
    rfl
  | succ m ih =>
    intro d dp dl fuel hn hf
    cases hy : absYields (fun i => classify f kh k (Tslot ((s + i) % len))) len d (len - d) with
    | nil =>
      obtain ⟨fl, rfl⟩ : ∃ fl, fuel = fl + 1 := ⟨fuel - 1, by omega⟩
      unfold collect NextBytes
      rw [next_eof f k kh hpos len s Tslot ctx d dp dl
        ((absNext_yields _ len (m + 1) d hn).1 hy)]
      rfl
    | cons hd tl =>
      obtain ⟨dp', dl'⟩ := hd
      obtain ⟨d', hd1, hd2, hnx, hrest, i, hi1, hi2, hi3⟩ :=
        (absNext_yields _ len (m + 1) d hn).2 dp' dl' tl hy
      rw [hy] at hf
      obtain ⟨fl, rfl⟩ : ∃ fl, fuel = fl + 1 := ⟨fuel - 1, by omega⟩
      unfold collect NextBytes
      rw [next_hit f k kh hpos len s Tslot ctx d dp dl d' dp' dl' hnx]
      dsimp only [stateFor]
      obtain ⟨hb1, hb2⟩ := ctx.hit_ok ((s + i) % len) dp' dl' (Nat.mod_lt _ ctx.len_pos) hi3
      have hra : readAtResult f dp' dl' = (dl', none) := by
        unfold readAtResult
        rw [if_neg (by omega), if_pos hb2]
      rw [hra]
      dsimp only
      have hcall := ih d' dp' dl' fl (by omega) (by rw [hrest]; simp at hf ⊢; omega)
      dsimp only [stateFor] at hcall
      rw [hcall, hrest]
      rfl

/-! ### Sub-table slot helpers -/

theorem slotD_set_self (T : List (Nat × Nat)) (j : Nat) (e : Nat × Nat) (hj : j < T.length) :
    slotD (T.set j e) j = e := by
  unfold slotD
  have h : j < (T.set j e).length := by rw [List.length_set]; exact hj
  rw [List.getD_eq_getElem _ _ h, List.getElem_set_self]

theorem slotD_set_ne (T : List (Nat × Nat)) (i j : Nat) (e : Nat × Nat) (h : i ≠ j) :
    slotD (T.set j e) i = slotD T i := by
  unfold slotD
  rw [List.getD_eq_getElem?_getD, List.getD_eq_getElem?_getD, List.getElem?_set_ne (by omega)]

theorem slotD_replicate (n j : Nat) : slotD (List.replicate n ((0 : Nat), (0 : Nat))) j = (0, 0) := by
  unfold slotD
  by_cases h : j < n
  · rw [List.getD_eq_getElem _ _ (by simpa using h), List.getElem_replicate]
  · rw [List.getD_eq_default _ _ (by simpa using h)]

theorem occCount_replicate (n : Nat) : occCount (List.replicate n ((0 : Nat), (0 : Nat))) = 0 := by
  unfold occCount
  rw [List.filter_eq_nil_iff.mpr]
  · rfl
  · intro a ha
    rw [List.eq_of_mem_replicate ha]
    simp

theorem occCount_set (T : List (Nat × Nat)) (j : Nat) (e : Nat × Nat) (hj : j < T.length)
    (hempty : (slotD T j).2 = 0) (hne : e.2 ≠ 0) :
    occCount (T.set j e) = occCount T + 1 := by
  unfold occCount
  rw [List.set_eq_take_cons_drop _ hj]
  conv_rhs => rw [← List.take_append_drop j T, List.drop_eq_getElem_cons hj]
  rw [List.filter_append, List.filter_append, List.filter_cons, List.filter_cons]
  have h1 : (decide (e.2 ≠ 0)) = true := by simp [hne]
  have h2 : (decide ((T[j]).2 ≠ 0)) = false := by
    have hg : slotD T j = T[j] := by unfold slotD; rw [List.getD_eq_getElem _ _ hj]
    rw [hg] at hempty
    simp [hempty]
  simp only [h1, h2]
  simp only [if_true, if_false, Bool.false_eq_true, List.length_append, List.length_cons]
  omega

theorem occ_exists_empty (T : List (Nat × Nat)) (hocc : occCount T < T.length) :
    ∃ j, j < T.length ∧ (slotD T j).2 = 0 := by
  by_contra hc
  push_neg at hc
  have hfull : T.filter (fun x => decide (x.2 ≠ 0)) = T := by
    rw [List.filter_eq_self]
    intro a ha
    obtain ⟨i, hi, rfl⟩ := List.mem_iff_getElem.mp ha
    have := hc i hi
    rw [show slotD T i = T[i] from by unfold slotD; rw [List.getD_eq_getElem _ _ hi]] at this
    simpa using this
  unfold occCount at hocc
  rw [hfull] at hocc
  exact absurd hocc (lt_irrefl _)

theorem probeFind_facts (T : List (Nat × Nat)) (s D : Nat) (h : probeFind T s = some D) :
    D < T.length ∧ (slotD T ((s + D) % T.length)).2 = 0 ∧
      ∀ d, d < D → (slotD T ((s + d) % T.length)).2 ≠ 0 := by
  unfold probeFind at h
  rw [List.find?_range_eq_some] at h
  obtain ⟨h1, h2, h3⟩ := h
  refine ⟨List.mem_range.mp h2, of_decide_eq_true h1, ?_⟩
  intro d hd
  have h4 := h3 d hd
  simp only [Bool.not_eq_true', decide_eq_false_iff_not] at h4
  unfold slotD
  exact h4

theorem probeFind_isSome (T : List (Nat × Nat)) (s : Nat) (hs : s < T.length)
    (hocc : occCount T < T.length) : ∃ D, probeFind T s = some D := by
  obtain ⟨j, hj, hjz⟩ := occ_exists_empty T hocc
  obtain ⟨hinv, hlt⟩ := cycle_inv T.length s j hs hj
  unfold slotD at hjz
  have hex : ∃ d, d ∈ List.range T.length ∧
      (fun d => decide ((T.getD ((s + d) % T.length) (0, 0)).2 = 0)) d = true := by
    refine ⟨(j + T.length - s) % T.length, List.mem_range.mpr hlt, ?_⟩
    simp only [hinv, decide_eq_true_eq]
    exact hjz
  have hsome : ((List.range T.length).find?
      (fun d => decide ((T.getD ((s + d) % T.length) (0, 0)).2 = 0))).isSome :=
    List.find?_isSome.mpr hex
  obtain ⟨D, hD⟩ := Option.isSome_iff_exists.mp hsome
  exact ⟨D, by unfold probeFind; exact hD⟩

theorem insEntry_eq (T : List (Nat × Nat)) (e : Nat × Nat) (hlen : 0 < T.length)
    (hocc : occCount T < T.length) :
    ∃ D, probeFind T (stVal T.length e) = some D ∧
      insEntry T e = T.set ((stVal T.length e + D) % T.length) e := by
  obtain ⟨D, hD⟩ := probeFind_isSome T (stVal T.length e) (Nat.mod_lt _ hlen) hocc
  refine ⟨D, hD, ?_⟩
  unfold insEntry
  rw [show e.1 / 256 % T.length = stVal T.length e from rfl, hD]

theorem map_range_congr (g g' : Nat → Nat × Nat) (n : Nat) (h : ∀ d, d < n → g d = g' d) :
    (List.range n).map g = (List.range n).map g' :=
  List.map_congr_left (fun d hd => h d (List.mem_range.mp hd))

theorem filter_map_range'_nil (sp : Nat × Nat → Bool) (g : Nat → Nat × Nat) (a n : Nat)
    (h : ∀ d, a ≤ d → d < a + n → sp (g d) = false) :
    ((List.range' a n).map g).filter sp = [] := by
  rw [List.filter_eq_nil_iff]
  intro x hx
  rw [List.mem_map] at hx
  obtain ⟨d, hd, rfl⟩ := hx
  rw [List.mem_range'_1] at hd
  simp [h d hd.1 hd.2]

/-! ### Inserting one entry preserves the probing invariants -/

theorem insEntry_length (T : List (Nat × Nat)) (e : Nat × Nat) :
    (insEntry T e).length = T.length := by
  unfold insEntry
  cases probeFind T (e.1 / 256 % T.length) with
  | none => rfl
  | some d => rw [List.length_set]

theorem foldl_insEntry_length (es : List (Nat × Nat)) :
    ∀ T : List (Nat × Nat), (es.foldl insEntry T).length = T.length := by
  induction es with
  | nil => intro T; rfl
  | cons e es ih =>
    intro T
    rw [List.foldl_cons, ih (insEntry T e), insEntry_length]

theorem buildTable_length (es : List (Nat × Nat)) (len : Nat) :
    (buildTable es len).length = len := by
  unfold buildTable
  rw [foldl_insEntry_length, List.length_replicate]

theorem set_preserves_reach (T : List (Nat × Nat)) (len : Nat) (hTlen : T.length = len)
    (hlen : 0 < len) (e : Nat × Nat) (he : e.2 ≠ 0) (D₀ : Nat) (hD₀lt : D₀ < len)
    (hD₀occ : ∀ d, d < D₀ → (slotD T ((stVal len e + d) % len)).2 ≠ 0)
    (hre : ∀ s, s < len → Reach T len s) (s : Nat) (hs : s < len) :
    Reach (T.set ((stVal len e + D₀) % len) e) len s := by
  set j₀ := (stVal len e + D₀) % len with hj₀def
  have hj₀lt : j₀ < len := Nat.mod_lt _ hlen
  have hslot_self : slotD (T.set j₀ e) j₀ = e := slotD_set_self T j₀ e (by omega)
  have hslot_other : ∀ i, i ≠ j₀ → slotD (T.set j₀ e) i = slotD T i :=
    fun i h => slotD_set_ne T i j₀ e h
  intro d d' hd'd hdlen hocc' hst'
  by_cases hidx : (s + d) % len = j₀
  · rw [hidx, hslot_self] at hst'
    -- the occupied slot is e itself, so its start is s
    have hs' : stVal len e = s := hst'
    have hdD₀ : d = D₀ := by
      apply shift_mod_inj len s d D₀ hs hdlen hD₀lt
      rw [hidx, hj₀def, hs']
    have hidx' : (s + d') % len ≠ j₀ := by
      intro hcon
      have := shift_mod_inj len s d' D₀ hs (by omega) hD₀lt (by rw [hcon, hj₀def, hs'])
      omega
    rw [hslot_other _ hidx']
    have h := hD₀occ d' (by omega)
    rw [hs'] at h
    exact h
  · rw [hslot_other _ hidx] at hocc' hst'
    have hT := hre s hs d d' hd'd hdlen hocc' hst'
    by_cases hidx' : (s + d') % len = j₀
    · rw [hidx', hslot_self]
      exact he
    · rw [hslot_other _ hidx']
      exact hT

theorem set_filter_eq (T : List (Nat × Nat)) (len : Nat) (hTlen : T.length = len)
    (hlen : 0 < len) (hocc : occCount T < len)
    (e : Nat × Nat) (he : e.2 ≠ 0) (D₀ : Nat)
    (hD₀find : probeFind T (stVal len e) = some D₀) (hD₀lt : D₀ < len)
    (hD₀empty : (slotD T ((stVal len e + D₀) % len)).2 = 0)
    (hre : ∀ s, s < len → Reach T len s)
    (es : List (Nat × Nat))
    (hfil : ∀ s, s < len → ∀ D, probeFind T s = some D →
      ((List.range D).map (fun d => slotD T ((s + d) % len))).filter
          (fun x => decide (x.2 ≠ 0) && decide (stVal len x = s)) =
        es.filter (fun x => decide (x.2 ≠ 0) && decide (stVal len x = s)))
    (s : Nat) (hs : s < len) (D' : Nat)
    (hD' : probeFind (T.set ((stVal len e + D₀) % len) e) s = some D') :
    ((List.range D').map
        (fun d => slotD (T.set ((stVal len e + D₀) % len) e) ((s + d) % len))).filter
        (fun x => decide (x.2 ≠ 0) && decide (stVal len x = s)) =
      (es ++ [e]).filter (fun x => decide (x.2 ≠ 0) && decide (stVal len x = s)) := by
  set j₀ := (stVal len e + D₀) % len with hj₀def
  have hj₀lt : j₀ < len := Nat.mod_lt _ hlen
  obtain ⟨hD'lt, hD'empty, hD'occ⟩ := probeFind_facts (T.set j₀ e) s D' hD'
  have hlen' : (T.set j₀ e).length = len := by rw [List.length_set, hTlen]
  rw [hlen'] at hD'lt hD'empty hD'occ
  obtain ⟨D, hD⟩ := probeFind_isSome T s (by omega) (by omega)
  obtain ⟨hDlt, hDempty, hDocc⟩ := probeFind_facts T s D hD
  rw [hTlen] at hDlt hDempty hDocc
  obtain ⟨hδinv, hδlt⟩ := cycle_inv len s j₀ hs hj₀lt
  set δ := (j₀ + len - s) % len with hδdef
  have hslot_self : slotD (T.set j₀ e) j₀ = e := slotD_set_self T j₀ e (by omega)
  have hslot_other : ∀ i, i ≠ j₀ → slotD (T.set j₀ e) i = slotD T i :=
    fun i h => slotD_set_ne T i j₀ e h
  have hDδ : D ≤ δ := by
    by_contra hcon
    push_neg at hcon
    exact hDocc δ hcon (by rw [hδinv]; exact hD₀empty)
  rw [List.filter_append]
  by_cases hcase : δ = D
  · -- the new entry sits exactly at the old first empty slot of start s
    have hj₀D : (s + D) % len = j₀ := by rw [← hcase]; exact hδinv
    have hDD' : D < D' := by
      have hidx : (s + D') % len ≠ j₀ := by
        intro hcon
        have h1 := hD'empty
        rw [hcon, hslot_self] at h1
        exact he h1
      have hTempty : (slotD T ((s + D') % len)).2 = 0 := by
        rw [← hslot_other _ hidx]
        exact hD'empty
      have h1 : D ≤ D' := by
        by_contra hc
        push_neg at hc
        exact hDocc D' hc hTempty
      have h2 : D ≠ D' := by
        intro hcon
        have h3 := hD'empty
        rw [← hcon, hj₀D, hslot_self] at h3
        exact he h3
      omega
    have hr1 : List.range D' = List.range D ++ List.range' D (D' - D) := by
      have h := List.range'_append_1 0 D (D' - D)
      rw [Nat.zero_add, show D' - D + D = D' from by omega] at h
      rw [List.range_eq_range', List.range_eq_range', ← h]
    have hr2 : List.range' D (D' - D) = D :: List.range' (D + 1) (D' - D - 1) := by
      rw [show D' - D = (D' - D - 1) + 1 from by omega]
      rfl
    rw [hr1, hr2, List.map_append, List.map_cons, List.filter_append, List.filter_cons]
    have hpart1 : (List.range D).map (fun d => slotD (T.set j₀ e) ((s + d) % len)) =
        (List.range D).map (fun d => slotD T ((s + d) % len)) := by
      apply map_range_congr
      intro d hd
      apply hslot_other
      intro hcon
      have := shift_mod_inj len s d D hs (by omega) hDlt (by rw [hcon, hj₀D])
      omega
    rw [hpart1, hfil s hs D hD]
    have hmid : slotD (T.set j₀ e) ((s + D) % len) = e := by
      rw [hj₀D]
      exact hslot_self
    rw [hmid]
    have hpart3 : ((List.range' (D + 1) (D' - D - 1)).map
        (fun d => slotD (T.set j₀ e) ((s + d) % len))).filter
        (fun x => decide (x.2 ≠ 0) && decide (stVal len x = s)) = [] := by
      apply filter_map_range'_nil
      intro d hd1 hd2
      have hdlt : d < D' := by omega
      have hdlen : d < len := by omega
      have hidx : (s + d) % len ≠ j₀ := by
        intro hcon
        have := shift_mod_inj len s d D hs hdlen hDlt (by rw [hcon, hj₀D])
        omega
      rw [hslot_other _ hidx]
      have hTnz : (slotD T ((s + d) % len)).2 ≠ 0 := by
        rw [← hslot_other _ hidx]
        exact hD'occ d hdlt
      have hstne : stVal len (slotD T ((s + d) % len)) ≠ s := by
        intro hcon
        exact hre s hs d D (by omega) hdlen hTnz hcon hDempty
      simp [hstne]
    rw [hpart3]
    by_cases hspe : (decide (e.2 ≠ 0) && decide (stVal len e = s)) = true
    · rw [if_pos hspe]
      simp [List.filter_cons, hspe]
      rw [if_pos (by simpa using hspe)]
    · rw [if_neg hspe]
      simp only [Bool.not_eq_true] at hspe
      simp [List.filter_cons, hspe]
      intro h2 hst
      simp [h2, hst] at hspe
  · -- the new entry lies strictly past the old first empty slot of s
    have hcase' : D < δ := by omega
    have hss' : stVal len e ≠ s := by
      intro hcon
      rw [hcon] at hD₀find
      have hDD₀ : D₀ = D := Option.some.inj (hD₀find.symm.trans hD)
      have hδD₀ : δ = D₀ := by
        rw [hδdef, hj₀def, hcon]
        exact shift_mod_cancel len s D₀ hs hD₀lt
      omega
    have hD'D : D' = D := by
      have hidx : (s + D) % len ≠ j₀ := by
        intro hcon
        have := shift_mod_inj len s D δ hs hDlt hδlt (by rw [hcon, hδinv])
        omega
      have hT'empty : (slotD (T.set j₀ e) ((s + D) % len)).2 = 0 := by
        rw [hslot_other _ hidx]
        exact hDempty
      have h1 : D' ≤ D := by
        by_contra hc
        push_neg at hc
        exact hD'occ D hc hT'empty
      have h2 : D ≤ D' := by
        by_contra hc
        push_neg at hc
        have hidx' : (s + D') % len ≠ j₀ := by
          intro hcon
          have := shift_mod_inj len s D' δ hs (by omega) hδlt (by rw [hcon, hδinv])
          omega
        exact hDocc D' hc (by rw [← hslot_other _ hidx']; exact hD'empty)
      omega
    subst hD'D
    have hpart : (List.range D').map (fun d => slotD (T.set j₀ e) ((s + d) % len)) =
        (List.range D').map (fun d => slotD T ((s + d) % len)) := by
      apply map_range_congr
      intro d hd
      apply hslot_other
      intro hcon
      have := shift_mod_inj len s d δ hs (by omega) hδlt (by rw [hcon, hδinv])
      omega
    rw [hpart, hfil s hs D' hD]
    have hspe : (decide (e.2 ≠ 0) && decide (stVal len e = s)) = false := by
      simp [hss']
    simp [List.filter_cons, hspe]
    intro h2 hst
    simp [h2, hst] at hspe

theorem buildTable_append_one (es : List (Nat × Nat)) (e : Nat × Nat) (len : Nat) :
    buildTable (es ++ [e]) len = insEntry (buildTable es len) e := by
  unfold buildTable
  rw [List.foldl_append]
  rfl

theorem buildTable_facts (len : Nat) (hlen : 0 < len) (es : List (Nat × Nat)) :
    (∀ x ∈ es, x.2 ≠ 0) → es.length < len →
      occCount (buildTable es len) = es.length ∧
      (∀ s, s < len → Reach (buildTable es len) len s) ∧
      (∀ j, j < len → slotD (buildTable es len) j = (0, 0) ∨ slotD (buildTable es len) j ∈ es) ∧
      (∀ s, s < len → ∀ D, probeFind (buildTable es len) s = some D →
        ((List.range D).map (fun d => slotD (buildTable es len) ((s + d) % len))).filter
            (fun x => decide (x.2 ≠ 0) && decide (stVal len x = s)) =
          es.filter (fun x => decide (x.2 ≠ 0) && decide (stVal len x = s))) := by
  induction es using List.reverseRecOn with
  | nil =>
    intro _ _
    have hT : buildTable [] len = List.replicate len ((0 : Nat), (0 : Nat)) := rfl
    rw [hT]
    refine ⟨occCount_replicate len, ?_, ?_, ?_⟩
    · intro s hs d d' hd'd hdlen hocc' _
      rw [slotD_replicate] at hocc'
      exact absurd rfl hocc'
    · intro j _
      left
      exact slotD_replicate len j
    · intro s hs D hD
      obtain ⟨hDlt, hDempty, hDocc⟩ := probeFind_facts _ s D hD
      have hD0 : D = 0 := by
        by_contra hc
        exact hDocc 0 (by omega) (by rw [slotD_replicate])
      rw [hD0]
      simp
  | append_singleton es e ih =>
    intro hnz hlen2
    have hnz' : ∀ x ∈ es, x.2 ≠ 0 := fun x hx => hnz x (by simp [hx])
    have he : e.2 ≠ 0 := hnz e (by simp)
    rw [List.length_append, List.length_cons] at hlen2
    obtain ⟨hTocc, hTreach, hTslots, hTfil⟩ := ih hnz' (by simp at hlen2 ⊢; omega)
    have hTlen : (buildTable es len).length = len := buildTable_length es len
    obtain ⟨D₀, hD₀find, hins⟩ := insEntry_eq (buildTable es len) e (by omega)
      (by rw [hTlen, hTocc]; simp at hlen2; omega)
    rw [hTlen] at hD₀find hins
    obtain ⟨hD₀lt, hD₀empty, hD₀occ⟩ := probeFind_facts _ (stVal len e) D₀ hD₀find
    rw [hTlen] at hD₀lt hD₀empty hD₀occ
    rw [buildTable_append_one, hins]
    have hj₀lt : (stVal len e + D₀) % len < len := Nat.mod_lt _ hlen
    have hocclt : occCount (buildTable es len) < len := by
      rw [hTocc]
      simp at hlen2
      omega
    refine ⟨?_, ?_, ?_, ?_⟩
    · rw [occCount_set _ _ _ (by omega) hD₀empty he, hTocc]
      simp
    · intro s hs
      exact set_preserves_reach (buildTable es len) len hTlen hlen e he D₀ hD₀lt hD₀occ
        hTreach s hs
    · intro j hj
      by_cases hidx : j = (stVal len e + D₀) % len
      · right
        rw [hidx, slotD_set_self _ _ _ (by omega)]
        simp
      · rw [slotD_set_ne _ _ _ _ hidx]
        rcases hTslots j hj with h | h
        · left; exact h
        · right; exact List.mem_append_left _ h
    · intro s hs D' hD'
      exact set_filter_eq (buildTable es len) len hTlen hlen hocclt e he D₀ hD₀find hD₀lt
        hD₀empty hTreach es hTfil s hs D' hD'

/-! ### Extraction through appends and flattens -/

theorem extract_append_left (xs ys : List Nat) (pos len : Nat) (h : pos + len ≤ xs.length) :
    extract (xs ++ ys) pos len = extract xs pos len := by
  unfold extract bnorm
  rw [List.drop_append_of_le_length (by omega),
    List.take_append_of_le_length (by rw [List.length_drop]; omega)]

theorem extract_append_right (xs ys : List Nat) (pos len : Nat) (h : xs.length ≤ pos) :
    extract (xs ++ ys) pos len = extract ys (pos - xs.length) len := by
  obtain ⟨d, rfl⟩ : ∃ d, pos = xs.length + d := ⟨pos - xs.length, by omega⟩
  unfold extract bnorm
  rw [List.drop_append, Nat.add_sub_cancel_left]

theorem bnorm_append (a b : List Nat) : bnorm (a ++ b) = bnorm a ++ bnorm b := by
  unfold bnorm
  rw [List.map_append]

theorem bnorm_length (a : List Nat) : (bnorm a).length = a.length := by
  unfold bnorm
  rw [List.length_map]

theorem le32_ByteOk (n : Nat) : ByteOk (le32 n) := by
  intro b hb
  unfold le32 at hb
  simp at hb
  rcases hb with h | h | h | h <;> (rw [h]; exact Nat.mod_lt _ (by omega))

theorem bnorm_le32 (n : Nat) : bnorm (le32 n) = le32 n := bnorm_eq_self _ (le32_ByteOk n)

theorem le32_length (n : Nat) : (le32 n).length = 4 := rfl

theorem extract_flatten_within (L : List (List Nat)) :
    ∀ (i : Nat), i < L.length → ∀ (off len : Nat), off + len ≤ (L.getD i []).length →
      extract L.flatten (((L.take i).map List.length).sum + off) len =
        extract (L.getD i []) off len := by
  induction L with
  | nil => intro i hi; simp at hi
  | cons x L ih =>
    intro i hi off len hoff
    cases i with
    | zero =>
      rw [List.flatten_cons]
      simp only [List.take_zero, List.map_nil, List.sum_nil, Nat.zero_add]
      rw [List.getD_cons_zero] at hoff ⊢
      exact extract_append_left x L.flatten off len hoff
    | succ i =>
      rw [List.flatten_cons]
      simp only [List.take_succ_cons, List.map_cons, List.sum_cons, List.getD_cons_succ] at hoff ⊢
      rw [Nat.add_assoc, extract_append_right x L.flatten _ len (by omega),
        Nat.add_sub_cancel_left]
      exact ih i (by simpa using hi) off len hoff

theorem sum_map_length_take (L : List (List Nat)) (w : Nat) (hw : ∀ l ∈ L, l.length = w) :
    ∀ i, i ≤ L.length → ((L.take i).map List.length).sum = w * i := by
  induction L with
  | nil =>
    intro i hi
    have : i = 0 := by simpa using hi
    simp [this]
  | cons x L ih =>
    intro i hi
    cases i with
    | zero => simp
    | succ i =>
      simp only [List.take_succ_cons, List.map_cons, List.sum_cons]
      rw [hw x (by simp), ih (fun l hl => hw l (by simp [hl])) i (by simpa using hi)]
      ring

theorem getD_map_range (g : Nat → List Nat) (n i : Nat) (hi : i < n) :
    ((List.range n).map g).getD i [] = g i := by
  have h1 : i < ((List.range n).map g).length := by simpa using hi
  rw [List.getD_eq_getElem _ _ h1, List.getElem_map, List.getElem_range]

theorem getD_map_slots (T : List (Nat × Nat)) (g : Nat × Nat → List Nat) (j : Nat)
    (hj : j < T.length) : (T.map g).getD j [] = g (slotD T j) := by
  have h1 : j < (T.map g).length := by simpa using hj
  rw [List.getD_eq_getElem _ _ h1, List.getElem_map]
  unfold slotD
  rw [List.getD_eq_getElem _ _ hj]

/-! ### Sums and bucket partitions -/

theorem sum_map_add_distrib (A B : Nat → Nat) (l : List Nat) :
    (l.map (fun b => A b + B b)).sum = (l.map A).sum + (l.map B).sum := by
  induction l with
  | nil => rfl
  | cons x l ih =>
    simp only [List.map_cons, List.sum_cons, ih]
    omega

theorem sum_indicator_zero (v : Nat) : ∀ n, n ≤ v →
    ((List.range n).map (fun b => if v = b then 1 else 0)).sum = 0 := by
  intro n
  induction n with
  | zero => intro _; rfl
  | succ m ih =>
    intro h
    rw [List.range_succ, List.map_append, List.sum_append, ih (by omega)]
    simp
    omega

theorem sum_indicator_range (n v : Nat) (h : v < n) :
    ((List.range n).map (fun b => if v = b then 1 else 0)).sum = 1 := by
  induction n with
  | zero => omega
  | succ m ih =>
    rw [List.range_succ, List.map_append, List.sum_append]
    by_cases hv : v = m
    · rw [sum_indicator_zero v m (by omega)]
      simp [hv]
    · rw [ih (by omega)]
      simp [hv]

theorem sum_filter_counts (l : List (Nat × Rec)) (g : Nat × Rec → Nat) (n : Nat)
    (h : ∀ x ∈ l, g x < n) :
    ((List.range n).map (fun b => (l.filter (fun x => decide (g x = b))).length)).sum =
      l.length := by
  induction l with
  | nil => simp
  | cons x l ih =>
    have hx : g x < n := h x (by simp)
    have hl : ∀ y ∈ l, g y < n := fun y hy => h y (by simp [hy])
    have hsplit : ∀ b, ((x :: l).filter (fun y => decide (g y = b))).length =
        (if g x = b then 1 else 0) + (l.filter (fun y => decide (g y = b))).length := by
      intro b
      rw [List.filter_cons]
      by_cases hb : g x = b
      · simp [hb]
        omega
      · simp [hb]
    have hcongr : (List.range n).map
          (fun b => ((x :: l).filter (fun y => decide (g y = b))).length) =
        (List.range n).map (fun b =>
          (if g x = b then 1 else 0) + (l.filter (fun y => decide (g y = b))).length) :=
      List.map_congr_left (fun b _ => hsplit b)
    rw [hcongr, sum_map_add_distrib, sum_indicator_range n (g x) hx, ih hl]
    simp
    omega

/-! ### Sizes and positions of the built file -/

theorem encodeRec_length (r : Rec) : (encodeRec r).length = recSize r := by
  unfold encodeRec recSize
  simp [le32_length]
  omega

theorem regionBytes_length (rs : List Rec) : (regionBytes rs).length = (rs.map recSize).sum := by
  unfold regionBytes
  rw [List.length_flatten, List.map_map]
  congr 1
  exact List.map_congr_left (fun r _ => encodeRec_length r)

theorem sum_map_const_len (L : List (List Nat)) (w : Nat) (hw : ∀ l ∈ L, l.length = w) :
    (L.map List.length).sum = w * L.length := by
  have := sum_map_length_take L w hw L.length (le_refl _)
  rw [List.take_length] at this
  exact this

theorem headerBytes_length (rs : List Rec) : (headerBytes rs).length = 2048 := by
  unfold headerBytes
  rw [List.length_flatten, sum_map_const_len _ 8]
  · simp
  · intro l hl
    rw [List.mem_map] at hl
    obtain ⟨b, _, rfl⟩ := hl
    simp [le32_length]

theorem encodeSlots_length (T : List (Nat × Nat)) : (encodeSlots T).length = 8 * T.length := by
  unfold encodeSlots
  rw [List.length_flatten, sum_map_const_len _ 8]
  · rw [List.length_map]
  · intro l hl
    rw [List.mem_map] at hl
    obtain ⟨e, _, rfl⟩ := hl
    simp [le32_length]

theorem tableFor_length (rs : List Rec) (b : Nat) :
    (tableFor rs b).length = 2 * (bucketEntries rs b).length := buildTable_length _ _

theorem layout_length (rs : List Rec) : ∀ pos, (layout pos rs).length = rs.length := by
  induction rs with
  | nil => intro pos; rfl
  | cons r rs ih =>
    intro pos
    unfold layout
    rw [List.length_cons, ih]
    rfl

theorem layout_map_snd (rs : List Rec) : ∀ pos, (layout pos rs).map Prod.snd = rs := by
  induction rs with
  | nil => intro pos; rfl
  | cons r rs ih =>
    intro pos
    unfold layout
    rw [List.map_cons, ih]

theorem layout_bounds (rs : List Rec) : ∀ pos pr, pr ∈ layout pos rs →
    pos ≤ pr.1 ∧ pr.1 + recSize pr.2 ≤ pos + (rs.map recSize).sum := by
  induction rs with
  | nil => intro pos pr h; cases h
  | cons r rs ih =>
    intro pos pr h
    unfold layout at h
    rw [List.mem_cons] at h
    rcases h with h | h
    · rw [h]
      simp only [List.map_cons, List.sum_cons]
      omega
    · have := ih (pos + recSize r) pr h
      simp only [List.map_cons, List.sum_cons]
      omega

theorem bucketEntries_length (rs : List Rec) (b : Nat) :
    (bucketEntries rs b).length =
      ((layout 2048 rs).filter (fun pr => decide (checksum pr.2.1 % 256 = b))).length := by
  unfold bucketEntries bucketRecs
  rw [List.length_map]

theorem sum_buckets (rs : List Rec) :
    ((List.range 256).map (fun b => (bucketEntries rs b).length)).sum = rs.length := by
  have hcongr : (List.range 256).map (fun b => (bucketEntries rs b).length) =
      (List.range 256).map (fun b =>
        ((layout 2048 rs).filter (fun pr => decide (checksum pr.2.1 % 256 = b))).length) :=
    List.map_congr_left (fun b _ => bucketEntries_length rs b)
  rw [hcongr, sum_filter_counts _ _ 256 (fun x _ => Nat.mod_lt _ (by omega)), layout_length]

theorem sum_map_mul_left' (c : Nat) (h : Nat → Nat) (l : List Nat) :
    (l.map (fun b => c * h b)).sum = c * (l.map h).sum := by
  induction l with
  | nil => simp
  | cons x l ih =>
    simp only [List.map_cons, List.sum_cons, ih]
    ring

theorem sum_range_le (g : Nat → Nat) (b n : Nat) (h : b ≤ n) :
    ((List.range b).map g).sum ≤ ((List.range n).map g).sum := by
  have hr : List.range n = List.range b ++ List.range' b (n - b) := by
    have h1 := List.range'_append_1 0 b (n - b)
    rw [Nat.zero_add, show n - b + b = n from by omega] at h1
    rw [List.range_eq_range', List.range_eq_range', ← h1]
  rw [hr, List.map_append, List.sum_append]
  omega

theorem subT_length (rs : List Rec) :
    (((List.range 256).map (fun b => encodeSlots (tableFor rs b))).flatten).length =
      16 * rs.length := by
  rw [List.length_flatten, List.map_map]
  have hcongr : (List.range 256).map (List.length ∘ fun b => encodeSlots (tableFor rs b)) =
      (List.range 256).map (fun b => 16 * (bucketEntries rs b).length) := by
    apply List.map_congr_left
    intro b _
    simp only [Function.comp]
    rw [encodeSlots_length, tableFor_length]
    ring
  rw [hcongr, sum_map_mul_left', sum_buckets]

theorem build_length (rs : List Rec) : (build rs).length = buildSize rs := by
  unfold build buildSize
  rw [List.length_append, List.length_append, headerBytes_length, regionBytes_length,
    subT_length]

theorem endRecords_eq (rs : List Rec) : endRecords rs = 2048 + (rs.map recSize).sum := by
  unfold endRecords
  rw [regionBytes_length]

theorem subPos_succ (rs : List Rec) (b : Nat) :
    subPos rs (b + 1) = subPos rs b + 16 * (bucketEntries rs b).length := by
  unfold subPos
  rw [List.range_succ, List.map_append, List.sum_append]
  simp
  ring

theorem subPos_le (rs : List Rec) (b : Nat) (hb : b ≤ 256) :
    subPos rs b ≤ buildSize rs := by
  unfold subPos buildSize
  rw [endRecords_eq]
  have h1 : ((List.range b).map (fun c => (bucketEntries rs c).length)).sum ≤
      ((List.range 256).map (fun c => (bucketEntries rs c).length)).sum :=
    sum_range_le _ b 256 hb
  rw [sum_buckets] at h1
  omega

theorem subPos_ge (rs : List Rec) (b : Nat) : endRecords rs ≤ subPos rs b := by
  unfold subPos
  omega

/-! ### Decoding the built file: records -/

theorem flatten_encodes_length (rs : List Rec) :
    ((rs.map encodeRec).flatten).length = (rs.map recSize).sum := by
  rw [List.length_flatten, List.map_map]
  congr 1
  exact List.map_congr_left (fun r _ => encodeRec_length r)

theorem recordAt_of_extract (f : File) (pos : Nat) (r : Rec) (hU : f.length < U32)
    (h : extract f pos (recSize r) = bnorm (encodeRec r)) : RecordAt f pos r := by
  have hlen : (extract f pos (recSize r)).length = recSize r := by
    rw [h, bnorm_length, encodeRec_length]
  rw [extract_length] at hlen
  have hbound : pos + recSize r ≤ f.length := by
    unfold recSize at hlen ⊢
    omega
  have hsz : recSize r = 8 + (r.1.length + r.2.length) := by unfold recSize; omega
  rw [hsz, extract_add f pos 8 _, extract_add f (pos + 8) r.1.length r.2.length] at h
  have hr : encodeRec r = (le32 r.1.length ++ le32 r.2.length) ++ (r.1 ++ r.2) := by
    unfold encodeRec
    simp [List.append_assoc]
  rw [hr, bnorm_append] at h
  have hlen1 : (extract f pos 8).length = (bnorm (le32 r.1.length ++ le32 r.2.length)).length := by
    rw [extract_length, bnorm_length, List.length_append, le32_length, le32_length]
    unfold recSize at hbound
    omega
  obtain ⟨hA, hBC⟩ := List.append_inj h hlen1
  rw [bnorm_append] at hBC
  have hlen2 : (extract f (pos + 8) r.1.length).length = (bnorm r.1).length := by
    rw [extract_length, bnorm_length]
    unfold recSize at hbound
    omega
  obtain ⟨hB, hC⟩ := List.append_inj hBC hlen2
  have hknorm : bnorm (le32 r.1.length ++ le32 r.2.length) =
      le32 r.1.length ++ le32 r.2.length := by
    rw [bnorm_append, bnorm_le32, bnorm_le32]
  rw [hknorm] at hA
  unfold recSize at hbound
  refine ⟨?_, hB, hC⟩
  exact readNums_of_extract f pos r.1.length r.2.length (by omega) (by omega) (by omega) hA

theorem records_decode (f : File) (hU : f.length < U32) : ∀ (rs : List Rec) (pos : Nat),
    extract f pos ((rs.map recSize).sum) = bnorm ((rs.map encodeRec).flatten) →
    ∀ pr ∈ layout pos rs, RecordAt f pr.1 pr.2 := by
  intro rs
  induction rs with
  | nil => intro pos _ pr hpr; cases hpr
  | cons r rs ih =>
    intro pos hext pr hpr
    have htotlen : (extract f pos ((r :: rs).map recSize).sum).length =
        ((r :: rs).map recSize).sum := by
      rw [hext, bnorm_length, flatten_encodes_length]
    rw [extract_length] at htotlen
    have hbound : pos + ((r :: rs).map recSize).sum ≤ f.length := by
      have hpos : 0 < recSize r := by unfold recSize; omega
      simp only [List.map_cons, List.sum_cons] at htotlen ⊢
      omega
    simp only [List.map_cons, List.sum_cons] at hext hbound
    rw [extract_add f pos (recSize r) _] at hext
    rw [List.flatten_cons, bnorm_append] at hext
    have hlen1 : (extract f pos (recSize r)).length = (bnorm (encodeRec r)).length := by
      rw [extract_length, bnorm_length, encodeRec_length]
      omega
    obtain ⟨hhead, htail⟩ := List.append_inj hext hlen1
    unfold layout at hpr
    rw [List.mem_cons] at hpr
    rcases hpr with hpr | hpr
    · rw [hpr]
      exact recordAt_of_extract f pos r hU hhead
    · exact ih (pos + recSize r) htail pr hpr

theorem build_region_extract (rs : List Rec) :
    extract (build rs) 2048 ((rs.map recSize).sum) = bnorm ((rs.map encodeRec).flatten) := by
  unfold build
  rw [List.append_assoc]
  rw [extract_append_right _ _ _ _ (by rw [headerBytes_length])]
  rw [headerBytes_length]
  norm_num
  rw [extract_append_left _ _ _ _ (by rw [regionBytes_length]; omega)]
  unfold regionBytes
  rw [show (rs.map recSize).sum = ((rs.map encodeRec).flatten).length from
    (flatten_encodes_length rs).symm]
  exact extract_all _

theorem build_records (rs : List Rec) (hsz : buildSize rs < U32) :
    ∀ pr ∈ layout 2048 rs, RecordAt (build rs) pr.1 pr.2 := by
  apply records_decode (build rs) (by rw [build_length]; exact hsz)
  exact build_region_extract rs

/-! ### Decoding the built file: header and sub-table slots -/

theorem nb_le (rs : List Rec) (b : Nat) : (bucketEntries rs b).length ≤ rs.length := by
  rw [bucketEntries_length]
  calc ((layout 2048 rs).filter _).length ≤ (layout 2048 rs).length :=
        List.length_filter_le _ _
    _ = rs.length := layout_length rs 2048

theorem buildSize_ge (rs : List Rec) : 2048 ≤ buildSize rs := by
  unfold buildSize
  omega

theorem header_read (rs : List Rec) (b : Nat) (hb : b < 256) (hsz : buildSize rs < U32) :
    readNums (build rs) (b * 8) = .ok (subPos rs b, 2 * (bucketEntries rs b).length) := by
  have hL : ((List.range 256).map
      (fun c => le32 (subPos rs c) ++ le32 (2 * (bucketEntries rs c).length))).length = 256 := by
    simp
  have hpiece : ((List.range 256).map
        (fun c => le32 (subPos rs c) ++ le32 (2 * (bucketEntries rs c).length))).getD b [] =
      le32 (subPos rs b) ++ le32 (2 * (bucketEntries rs b).length) :=
    getD_map_range _ 256 b hb
  have hext : extract (build rs) (b * 8) 8 =
      le32 (subPos rs b) ++ le32 (2 * (bucketEntries rs b).length) := by
    unfold build
    rw [List.append_assoc]
    rw [extract_append_left _ _ _ _ (by rw [headerBytes_length]; omega)]
    unfold headerBytes
    have hsum := sum_map_length_take ((List.range 256).map
        (fun c => le32 (subPos rs c) ++ le32 (2 * (bucketEntries rs c).length))) 8 ?hw b
      (by rw [hL]; omega)
    case hw =>
      intro l hl
      rw [List.mem_map] at hl
      obtain ⟨c, _, rfl⟩ := hl
      simp [le32_length]
    have h1 := extract_flatten_within ((List.range 256).map
        (fun c => le32 (subPos rs c) ++ le32 (2 * (bucketEntries rs c).length))) b
      (by rw [hL]; exact hb) 0 8 (by rw [hpiece]; simp [le32_length])
    rw [hsum, Nat.add_zero, hpiece] at h1
    rw [show b * 8 = 8 * b from by ring, h1]
    rw [show (8 : Nat) = (le32 (subPos rs b) ++ le32 (2 * (bucketEntries rs b).length)).length
      from by simp [le32_length]]
    rw [extract_all, bnorm_append, bnorm_le32, bnorm_le32]
  apply readNums_of_extract (build rs) (b * 8) _ _ ?_ ?_ ?_ hext
  · exact Nat.lt_of_le_of_lt (subPos_le rs b (by omega)) hsz
  · have h1 := nb_le rs b
    have h2 : 16 * rs.length ≤ buildSize rs := by unfold buildSize; omega
    omega
  · rw [build_length]
    have := buildSize_ge rs
    omega

theorem build_slot_read (rs : List Rec) (b j : Nat) (hb : b < 256)
    (hj : j < 2 * (bucketEntries rs b).length) (_hsz : buildSize rs < U32)
    (hhash : (slotD (tableFor rs b) j).1 < U32)
    (hpos : (slotD (tableFor rs b) j).2 < U32) :
    readNums (build rs) (subPos rs b + 8 * j) = .ok (slotD (tableFor rs b) j) := by
  have hTlen : (tableFor rs b).length = 2 * (bucketEntries rs b).length := tableFor_length rs b
  -- the sub-table region piece list
  have hSlen : ((List.range 256).map (fun c => encodeSlots (tableFor rs c))).length = 256 := by
    simp
  have hSpiece : ((List.range 256).map (fun c => encodeSlots (tableFor rs c))).getD b [] =
      encodeSlots (tableFor rs b) := getD_map_range _ 256 b hb
  -- prefix sum of sub-table sizes up to b
  have hprefix : ((((List.range 256).map (fun c => encodeSlots (tableFor rs c))).take b).map
      List.length).sum = subPos rs b - endRecords rs := by
    rw [← List.map_take, List.take_range, show min b 256 = b from by omega, List.map_map]
    have hcongr : (List.range b).map (List.length ∘ fun c => encodeSlots (tableFor rs c)) =
        (List.range b).map (fun c => 16 * (bucketEntries rs c).length) := by
      apply List.map_congr_left
      intro c _
      simp only [Function.comp]
      rw [encodeSlots_length, tableFor_length]
      ring
    rw [hcongr, sum_map_mul_left']
    unfold subPos
    omega
  -- the in-piece offset of slot j within encodeSlots
  have hinslot : extract (encodeSlots (tableFor rs b)) (8 * j) 8 =
      le32 (slotD (tableFor rs b) j).1 ++ le32 (slotD (tableFor rs b) j).2 := by
    unfold encodeSlots
    have hw : ∀ l ∈ (tableFor rs b).map (fun e => le32 e.1 ++ le32 e.2), l.length = 8 := by
      intro l hl
      rw [List.mem_map] at hl
      obtain ⟨e, _, rfl⟩ := hl
      simp [le32_length]
    have hsum := sum_map_length_take ((tableFor rs b).map (fun e => le32 e.1 ++ le32 e.2)) 8 hw j
      (by rw [List.length_map, hTlen]; omega)
    have hpiece : ((tableFor rs b).map (fun e => le32 e.1 ++ le32 e.2)).getD j [] =
        le32 (slotD (tableFor rs b) j).1 ++ le32 (slotD (tableFor rs b) j).2 := by
      rw [getD_map_slots _ _ j (by rw [hTlen]; omega)]
    have h1 := extract_flatten_within ((tableFor rs b).map (fun e => le32 e.1 ++ le32 e.2)) j
      (by rw [List.length_map, hTlen]; omega) 0 8 (by rw [hpiece]; simp [le32_length])
    rw [hsum, Nat.add_zero, hpiece] at h1
    rw [h1]
    rw [show (8 : Nat) = (le32 (slotD (tableFor rs b) j).1 ++
        le32 (slotD (tableFor rs b) j).2).length from by simp [le32_length]]
    rw [extract_all, bnorm_append, bnorm_le32, bnorm_le32]
  -- slot j lies within the sub-table of bucket b
  have hbound : subPos rs b + 8 * j + 8 ≤ buildSize rs := by
    have h1 : subPos rs (b + 1) ≤ buildSize rs := subPos_le rs (b + 1) (by omega)
    rw [subPos_succ] at h1
    omega
  have hext : extract (build rs) (subPos rs b + 8 * j) 8 =
      le32 (slotD (tableFor rs b) j).1 ++ le32 (slotD (tableFor rs b) j).2 := by
    unfold build
    rw [List.append_assoc]
    rw [extract_append_right _ _ _ _ (by
      rw [headerBytes_length]
      have := subPos_ge rs b
      have := endRecords_eq rs
      omega)]
    rw [headerBytes_length]
    rw [extract_append_right _ _ _ _ (by
      rw [regionBytes_length]
      have h1 := subPos_ge rs b
      rw [endRecords_eq] at h1
      omega)]
    rw [regionBytes_length]
    have hoff : subPos rs b + 8 * j - 2048 - (rs.map recSize).sum =
        (subPos rs b - endRecords rs) + 8 * j := by
      have h1 := subPos_ge rs b
      rw [endRecords_eq] at h1 ⊢
      omega
    rw [hoff, ← hprefix]
    have h2 := extract_flatten_within ((List.range 256).map (fun c => encodeSlots (tableFor rs c)))
      b (by rw [hSlen]; exact hb) (8 * j) 8
      (by rw [hSpiece, encodeSlots_length, hTlen]; omega)
    rw [hSpiece] at h2
    rw [h2, hinslot]
  apply readNums_of_extract (build rs) _ _ _ hhash hpos ?_ hext
  rw [build_length]
  omega

/-! ### From abstract yields to record filters -/

theorem classify_hit_implies (f : File) (kh : Nat) (k : List Nat) (x : Nat × Nat) (dp dl : Nat)
    (h : classify f kh k x = .hit dp dl) : x.2 ≠ 0 ∧ x.1 = kh := by
  unfold classify at h
  by_cases hz : x.2 = 0
  · rw [if_pos hz] at h
    cases h
  · rw [if_neg hz] at h
    by_cases hh : x.1 ≠ kh
    · rw [if_pos hh] at h
      cases h
    · exact ⟨hz, not_not.mp hh⟩

theorem classify_eq_empty (f : File) (kh : Nat) (k : List Nat) (x : Nat × Nat)
    (h : classify f kh k x = .empty) : x.2 = 0 := by
  unfold classify at h
  split at h
  · assumption
  · split at h
    · cases h
    · split at h
      · cases h
      · split at h
        · cases h
        · split at h
          · cases h
          · cases h

theorem absYields_stop (f : File) (kh : Nat) (k : List Nat) (Tslot : Nat → Nat × Nat)
    (len s D : Nat) (hD : D ≤ len) (hstop : D = len ∨ (Tslot ((s + D) % len)).2 = 0) :
    absYields (fun i => classify f kh k (Tslot ((s + i) % len))) len D (len - D) = [] := by
  rcases hstop with h | h
  · rw [h, Nat.sub_self]
    rfl
  · by_cases hdl : D < len
    · rw [show len - D = (len - (D + 1)) + 1 from by omega]
      unfold absYields
      rw [if_neg (by omega)]
      rw [classify_empty f kh k _ h]
    · rw [show len - D = 0 from by omega]
      rfl

theorem absYields_eq_filterMap (f : File) (kh : Nat) (k : List Nat) (Tslot : Nat → Nat × Nat)
    (len s D : Nat) (hD : D ≤ len)
    (hocc : ∀ i, i < D → (Tslot ((s + i) % len)).2 ≠ 0)
    (hstop : D = len ∨ (Tslot ((s + D) % len)).2 = 0) :
    ∀ n d, D - d ≤ n → d ≤ D →
      absYields (fun i => classify f kh k (Tslot ((s + i) % len))) len d (len - d) =
        ((List.range' d (D - d)).map (fun i => Tslot ((s + i) % len))).filterMap
          (hitInfo f kh k) := by
  intro n
  induction n with
  | zero =>
    intro d h1 h2
    have hdD : d = D := by omega
    subst hdD
    rw [Nat.sub_self, absYields_stop f kh k Tslot len s d hD hstop]
    rfl
  | succ m ih =>
    intro d h1 h2
    by_cases hdD : d = D
    · subst hdD
      rw [Nat.sub_self, absYields_stop f kh k Tslot len s d hD hstop]
      rfl
    · have hd : d < D := by omega
      have hdlen : d < len := by omega
      have hnz := hocc d hd
      rw [show len - d = (len - (d + 1)) + 1 from by omega]
      unfold absYields
      rw [if_neg (by omega)]
      rw [show D - d = (D - (d + 1)) + 1 from by omega]
      have hr : List.range' d ((D - (d + 1)) + 1) = d :: List.range' (d + 1) (D - (d + 1)) := rfl
      rw [hr, List.map_cons]
      cases hv : classify f kh k (Tslot ((s + d) % len)) with
      | empty => exact absurd (classify_eq_empty f kh k _ hv) hnz
      | skip =>
        have hnone : hitInfo f kh k (Tslot ((s + d) % len)) = none := by
          unfold hitInfo
          rw [hv]
        rw [List.filterMap_cons_none hnone]
        exact ih (d + 1) (by omega) (by omega)
      | hit dp dl =>
        have hsome : hitInfo f kh k (Tslot ((s + d) % len)) = some (dp, dl) := by
          unfold hitInfo
          rw [hv]
        rw [List.filterMap_cons_some hsome]
        dsimp only
        rw [ih (d + 1) (by omega) (by omega)]

theorem filterMap_filter_of {α β : Type} (g : α → Option β) (p : α → Bool)
    (h : ∀ x, (g x).isSome → p x = true) (l : List α) :
    (l.filter p).filterMap g = l.filterMap g := by
  induction l with
  | nil => rfl
  | cons x l ih =>
    rw [List.filter_cons]
    by_cases hp : p x = true
    · rw [if_pos hp]
      cases hg : g x with
      | none => rw [List.filterMap_cons_none hg, List.filterMap_cons_none hg, ih]
      | some y => rw [List.filterMap_cons_some hg, List.filterMap_cons_some hg, ih]
    · rw [if_neg hp]
      have hg : g x = none := by
        cases hg : g x with
        | none => rfl
        | some y => exact absurd (h x (by rw [hg]; rfl)) hp
      rw [List.filterMap_cons_none hg, ih]

theorem filterMap_ite_eq_filter_map (rs : List Rec) (k : List Nat) :
    rs.filterMap (fun r => if r.1 = k then some r.2 else none) =
      (rs.filter (fun r => decide (r.1 = k))).map (fun r => r.2) := by
  induction rs with
  | nil => rfl
  | cons r rs ih =>
    rw [List.filter_cons]
    by_cases h : r.1 = k
    · rw [List.filterMap_cons_some (by rw [if_pos h]), if_pos (by simp [h]), List.map_cons, ih]
    · rw [List.filterMap_cons_none (by rw [if_neg h]), if_neg (by simp [h]), ih]

/-! ### Hit analysis of built-file entries -/

theorem layout_mem_rec (rs : List Rec) (pr : Nat × Rec) (h : pr ∈ layout 2048 rs) : pr.2 ∈ rs := by
  rw [← layout_map_snd rs 2048]
  exact List.mem_map_of_mem Prod.snd h

theorem hitInfo_isSome_cases (f : File) (kh : Nat) (k : List Nat) (x : Nat × Nat)
    (h : (hitInfo f kh k x).isSome = true) : ∃ dp dl, classify f kh k x = .hit dp dl := by
  unfold hitInfo at h
  cases hcl : classify f kh k x with
  | empty => rw [hcl] at h; simp at h
  | skip => rw [hcl] at h; simp at h
  | hit dp dl => exact ⟨dp, dl, rfl⟩

theorem bucketEntries_mem (rs : List Rec) (b : Nat) (x : Nat × Nat)
    (hx : x ∈ bucketEntries rs b) :
    ∃ pr, pr ∈ layout 2048 rs ∧ x = (checksum pr.2.1, pr.1) ∧ checksum pr.2.1 % 256 = b := by
  unfold bucketEntries bucketRecs at hx
  rw [List.mem_map] at hx
  obtain ⟨pr, hpr, rfl⟩ := hx
  rw [List.mem_filter] at hpr
  exact ⟨pr, hpr.1, rfl, of_decide_eq_true hpr.2⟩

theorem bucketEntries_nonzero (rs : List Rec) (b : Nat) :
    ∀ x ∈ bucketEntries rs b, x.2 ≠ 0 := by
  intro x hx
  obtain ⟨pr, hpr, rfl, _⟩ := bucketEntries_mem rs b x hx
  have hbnd := layout_bounds rs 2048 pr hpr
  show pr.1 ≠ 0
  omega

/-- On a built file, a bucket entry's slot is a hit exactly when its record's
key equals the query key, and the hit payload is then the record's value
section. -/
theorem entry_hit (rs : List Rec) (k : List Nat) (pr : Nat × Rec)
    (hrok : RecsOk rs) (hkok : ByteOk k) (hsz : buildSize rs < U32) (hklen : k.length < U32)
    (hmem : pr ∈ layout 2048 rs) :
    hitInfo (build rs) (checksum k) k (checksum pr.2.1, pr.1) =
      if pr.2.1 = k then some (pr.1 + 8 + k.length, pr.2.2.length) else none := by
  obtain ⟨p, r⟩ := pr
  show hitInfo (build rs) (checksum k) k (checksum r.1, p) =
    if r.1 = k then some (p + 8 + k.length, r.2.length) else none
  have hrec : RecordAt (build rs) p r := build_records rs hsz (p, r) hmem
  have hrs : recSize r = 8 + r.1.length + r.2.length := rfl
  have hbnd : 2048 ≤ p ∧ p + recSize r ≤ 2048 + (rs.map recSize).sum :=
    layout_bounds rs 2048 (p, r) hmem
  have hsum : 2048 + (rs.map recSize).sum ≤ buildSize rs := by unfold buildSize; omega
  have hple : p + 8 + r.1.length + r.2.length ≤ buildSize rs := by
    rw [hrs] at hbnd
    omega
  have hrin : r ∈ rs := layout_mem_rec rs (p, r) hmem
  obtain ⟨hk1, hk2⟩ := hrok r hrin
  have hflen : (build rs).length = buildSize rs := build_length rs
  obtain ⟨hread, hkey, hval⟩ := hrec
  have hpnz : ((checksum r.1, p) : Nat × Nat).2 ≠ 0 := by
    show p ≠ 0
    omega
  have hmod8 : (p + 8) % U32 = p + 8 := Nat.mod_eq_of_lt (by omega)
  by_cases hrk : r.1 = k
  · rw [if_pos hrk]
    unfold hitInfo
    rw [classify_hit_eq (build rs) (checksum k) k (checksum r.1, p) hpnz (by simp [hrk])
      r.1.length r.2.length hread (by rw [Nat.mod_eq_of_lt hklen, hrk]; simp) ?hmt]
    case hmt =>
      show matchKey (build rs) k ((p + 8) % U32) = .ok true
      rw [hmod8, matchKey_spec (build rs) k (p + 8) (by rw [hflen, ← hrk]; omega)
        (by rw [hflen]; exact hsz)]
      rw [← hrk, hkey]
      simp
    dsimp only
    rw [Nat.mod_eq_of_lt (show p + 8 + r.1.length < U32 from by omega), hrk]
  · rw [if_neg hrk]
    unfold hitInfo
    by_cases hh : checksum r.1 = checksum k
    · by_cases hlen : r.1.length = k.length
      · rw [classify_skip_nomatch (build rs) (checksum k) k (checksum r.1, p) hpnz
          (by simp [hh]) r.1.length r.2.length hread
          (by rw [Nat.mod_eq_of_lt hklen]; simpa using hlen) ?hmf]
        case hmf =>
          show matchKey (build rs) k ((p + 8) % U32) = .ok false
          rw [hmod8, matchKey_spec (build rs) k (p + 8) (by rw [hflen, ← hlen]; omega)
            (by rw [hflen]; exact hsz)]
          rw [← hlen, hkey, bnorm_eq_self r.1 hk1, bnorm_eq_self k hkok]
          simp [hrk]
      · rw [classify_skip_klen (build rs) (checksum k) k (checksum r.1, p) hpnz
          (by simp [hh]) r.1.length r.2.length hread
          (by rw [Nat.mod_eq_of_lt hklen]; simpa using hlen)]
    · rw [classify_skip_hash (build rs) (checksum k) k (checksum r.1, p) hpnz
        (by simpa using hh)]

/-- The scan-simulation context of a built file, for any query key whose
bucket is nonempty. -/
theorem build_ctx (rs : List Rec) (k : List Nat) (b : Nat) (hbk : b = checksum k % 256)
    (hrok : RecsOk rs) (hkok : ByteOk k)
    (hsz : buildSize rs < U32) (hklen : k.length < U32)
    (hb1 : 1 ≤ (bucketEntries rs b).length) :
    ScanCtx (build rs) k (checksum k) (subPos rs b) (2 * (bucketEntries rs b).length)
      (checksum k / 256 % (2 * (bucketEntries rs b).length))
      (slotD (tableFor rs b)) := by
  have hb256 : b < 256 := by rw [hbk]; exact Nat.mod_lt _ (by omega)
  have hlenpos : 0 < 2 * (bucketEntries rs b).length := by omega
  have hflen : (build rs).length = buildSize rs := build_length rs
  have hTlen : (tableFor rs b).length = 2 * (bucketEntries rs b).length := tableFor_length rs b
  have hbound : subPos rs b + 8 * (2 * (bucketEntries rs b).length) ≤ buildSize rs := by
    have h1 := subPos_le rs (b + 1) (by omega)
    rw [subPos_succ] at h1
    omega
  obtain ⟨hocc, hreach, hslots, hfil⟩ := buildTable_facts (2 * (bucketEntries rs b).length)
    hlenpos (bucketEntries rs b) (bucketEntries_nonzero rs b) (by omega)
  have hslot : ∀ j, j < 2 * (bucketEntries rs b).length →
      slotD (tableFor rs b) j = (0, 0) ∨
      ∃ pr, pr ∈ layout 2048 rs ∧ slotD (tableFor rs b) j = (checksum pr.2.1, pr.1) := by
    intro j hj
    rcases hslots j hj with h | h
    · left
      exact h
    · right
      obtain ⟨pr, hpr, heq, _⟩ := bucketEntries_mem rs b _ h
      exact ⟨pr, hpr, heq⟩
  have hsum : 2048 + (rs.map recSize).sum ≤ buildSize rs := by unfold buildSize; omega
  have hslotU : ∀ j, j < 2 * (bucketEntries rs b).length →
      (slotD (tableFor rs b) j).1 < U32 ∧ (slotD (tableFor rs b) j).2 < U32 := by
    intro j hj
    rcases hslot j hj with h | ⟨pr, hpr, h⟩
    · rw [h]
      exact ⟨U32_pos, U32_pos⟩
    · rw [h]
      have hbnd := layout_bounds rs 2048 pr hpr
      have hkok' := (hrok pr.2 (layout_mem_rec rs pr hpr)).1
      have hrsz : recSize pr.2 = 8 + pr.2.1.length + pr.2.2.length := rfl
      refine ⟨checksum_lt pr.2.1 hkok', ?_⟩
      show pr.1 < U32
      omega
  refine ⟨hlenpos, Nat.mod_lt _ hlenpos, ?_, ?_, ?_, ?_, ?_⟩
  · rw [hflen]
    exact hbound
  · rw [hflen]
    exact hsz
  · intro j hj
    obtain ⟨h1, h2⟩ := hslotU j hj
    exact build_slot_read rs b j hb256 hj hsz h1 h2
  · intro j hj hnz hkh
    rcases hslot j hj with h | ⟨pr, hpr, h⟩
    · rw [h] at hnz
      exact absurd rfl hnz
    · obtain ⟨hread, hkey, hval⟩ := build_records rs hsz pr hpr
      have hbnd := layout_bounds rs 2048 pr hpr
      have hrsz : recSize pr.2 = 8 + pr.2.1.length + pr.2.2.length := rfl
      refine ⟨pr.2.1.length, pr.2.2.length, ?_, ?_⟩
      · rw [h]
        exact hread
      · intro hkl
        rw [Nat.mod_eq_of_lt hklen] at hkl
        refine ⟨decide (extract (build rs) (pr.1 + 8) k.length = bnorm k), ?_⟩
        rw [h]
        show matchKey (build rs) k ((pr.1 + 8) % U32) = _
        rw [Nat.mod_eq_of_lt (show pr.1 + 8 < U32 from by omega)]
        exact matchKey_spec (build rs) k (pr.1 + 8) (by rw [hflen]; omega)
          (by rw [hflen]; exact hsz)
  · intro i dp dl hi hhit
    rcases hslot i hi with h | ⟨pr, hpr, h⟩
    · rw [h, classify_empty (build rs) (checksum k) k (0, 0) rfl] at hhit
      cases hhit
    · rw [h] at hhit
      have hif : (if pr.2.1 = k then some (pr.1 + 8 + k.length, pr.2.2.length) else none) =
          some (dp, dl) := by
        rw [← entry_hit rs k pr hrok hkok hsz hklen hpr]
        unfold hitInfo
        rw [hhit]
      by_cases hrk : pr.2.1 = k
      · rw [if_pos hrk] at hif
        injection hif with hpair
        rw [Prod.mk.injEq] at hpair
        obtain ⟨h1, h2⟩ := hpair
        have hbnd := layout_bounds rs 2048 pr hpr
        have hrsz : recSize pr.2 = 8 + pr.2.1.length + pr.2.2.length := rfl
        have hkeq : pr.2.1.length = k.length := by rw [hrk]
        have hlay : 0 < rs.length := by
          have h0 := List.length_pos.mpr (List.ne_nil_of_mem hpr)
          rw [layout_length rs 2048] at h0
          exact h0
        have hbs : buildSize rs = 2048 + (rs.map recSize).sum + 16 * rs.length := rfl
        rw [hflen]
        omega
      · rw [if_neg hrk] at hif
        cases hif

/-- The complete lookup characterisation on a built file: collecting every
`NextBytes` yield of `Iterate` returns exactly the values of the records
whose key equals the query key, in write order, terminated by io.EOF. -/
theorem collect_build (rs : List Rec) (k : List Nat) (hrok : RecsOk rs) (hkok : ByteOk k)
    (hsz : buildSize rs < U32) (hklen : k.length < U32) (fuel : Nat)
    (hfuel : rs.length + 1 ≤ fuel) :
    collect (build rs) (Iterate (build rs) k) fuel =
      some ((rs.filter (fun r => decide (r.1 = k))).map (fun r => r.2), .eof) := by
  generalize hB : checksum k % 256 = b
  have hb256 : b < 256 := by rw [← hB]; exact Nat.mod_lt _ (by omega)
  have hflen : (build rs).length = buildSize rs := build_length rs
  have hhr : readNums (build rs) (b * 8) =
      .ok (subPos rs b, 2 * (bucketEntries rs b).length) := header_read rs b hb256 hsz
  by_cases hnb : (bucketEntries rs b).length = 0
  · -- empty bucket: the iterator is born exhausted and no record matches
    rw [hnb, Nat.mul_zero] at hhr
    have hfe : (layout 2048 rs).filter (fun pr => decide (checksum pr.2.1 % 256 = b)) = [] := by
      rw [← List.length_eq_zero]
      rw [bucketEntries_length] at hnb
      exact hnb
    have hfil : rs.filter (fun r => decide (r.1 = k)) = [] := by
      rw [List.filter_eq_nil_iff]
      intro r hr hdec
      have hrk : r.1 = k := of_decide_eq_true hdec
      obtain ⟨pr, hpr, hpr2⟩ := List.mem_map.mp
        (show r ∈ (layout 2048 rs).map Prod.snd by rw [layout_map_snd rs 2048]; exact hr)
      have hmem : pr ∈ (layout 2048 rs).filter
          (fun pr => decide (checksum pr.2.1 % 256 = b)) := by
        rw [List.mem_filter]
        refine ⟨hpr, ?_⟩
        rw [decide_eq_true_eq, hpr2, hrk]
        exact hB
      rw [hfe] at hmem
      cases hmem
    rw [Iterate_ok_zero (build rs) k (subPos rs b) (by rw [hB]; exact hhr), hfil]
    obtain ⟨fl, rfl⟩ : ∃ fl, fuel = fl + 1 := ⟨fuel - 1, by omega⟩
    rfl
  · -- nonempty bucket: run the scan simulation and fold the probe sequence
    -- down to the record filter
    have hb1 : 1 ≤ (bucketEntries rs b).length := by omega
    have hlenpos : 0 < 2 * (bucketEntries rs b).length := by omega
    have hTlen : (tableFor rs b).length = 2 * (bucketEntries rs b).length := tableFor_length rs b
    have hbound : subPos rs b + 8 * (2 * (bucketEntries rs b).length) ≤ buildSize rs := by
      have h1 := subPos_le rs (b + 1) (by omega)
      rw [subPos_succ] at h1
      omega
    have ctx : ScanCtx (build rs) k (checksum k) (subPos rs b)
        (2 * (bucketEntries rs b).length)
        (checksum k / 256 % (2 * (bucketEntries rs b).length))
        (slotD (tableFor rs b)) := build_ctx rs k b hB.symm hrok hkok hsz hklen hb1
    obtain ⟨hocc, hreach, hslots, hfil4⟩ := buildTable_facts (2 * (bucketEntries rs b).length)
      hlenpos (bucketEntries rs b) (bucketEntries_nonzero rs b) (by omega)
    have hoccT : occCount (tableFor rs b) = (bucketEntries rs b).length := hocc
    have hslt : checksum k / 256 % (2 * (bucketEntries rs b).length) <
        2 * (bucketEntries rs b).length := Nat.mod_lt _ hlenpos
    obtain ⟨D, hD⟩ := probeFind_isSome (tableFor rs b)
      (checksum k / 256 % (2 * (bucketEntries rs b).length))
      (by rw [hTlen]; exact hslt) (by rw [hTlen, hoccT]; omega)
    obtain ⟨hDlt, hDempty, hDocc⟩ := probeFind_facts (tableFor rs b)
      (checksum k / 256 % (2 * (bucketEntries rs b).length)) D hD
    rw [hTlen] at hDlt hDempty hDocc
    have hsp : ∀ x : Nat × Nat, (hitInfo (build rs) (checksum k) k x).isSome = true →
        (decide (x.2 ≠ 0) && decide (stVal (2 * (bucketEntries rs b).length) x =
          checksum k / 256 % (2 * (bucketEntries rs b).length))) = true := by
      intro x hx
      obtain ⟨dp, dl, hcl⟩ := hitInfo_isSome_cases (build rs) (checksum k) k x hx
      obtain ⟨hnz, hkh⟩ := classify_hit_implies (build rs) (checksum k) k x dp dl hcl
      rw [Bool.and_eq_true, decide_eq_true_eq, decide_eq_true_eq]
      refine ⟨hnz, ?_⟩
      unfold stVal
      rw [hkh]
    have hlist : absYields (fun i => classify (build rs) (checksum k) k
          (slotD (tableFor rs b) ((checksum k / 256 % (2 * (bucketEntries rs b).length) + i) %
            (2 * (bucketEntries rs b).length))))
        (2 * (bucketEntries rs b).length) 0 (2 * (bucketEntries rs b).length - 0) =
        (layout 2048 rs).filterMap
          (fun pr => if pr.2.1 = k then some (pr.1 + 8 + k.length, pr.2.2.length) else none) := by
      calc absYields (fun i => classify (build rs) (checksum k) k
              (slotD (tableFor rs b) ((checksum k / 256 % (2 * (bucketEntries rs b).length) + i) %
                (2 * (bucketEntries rs b).length))))
            (2 * (bucketEntries rs b).length) 0 (2 * (bucketEntries rs b).length - 0)
          = ((List.range D).map (fun d => slotD (tableFor rs b)
              ((checksum k / 256 % (2 * (bucketEntries rs b).length) + d) %
                (2 * (bucketEntries rs b).length)))).filterMap
              (hitInfo (build rs) (checksum k) k) := by
            rw [List.range_eq_range']
            exact absYields_eq_filterMap (build rs) (checksum k) k (slotD (tableFor rs b))
              (2 * (bucketEntries rs b).length)
              (checksum k / 256 % (2 * (bucketEntries rs b).length)) D (by omega) hDocc
              (Or.inr hDempty) D 0 (by omega) (by omega)
        _ = (((List.range D).map (fun d => slotD (tableFor rs b)
              ((checksum k / 256 % (2 * (bucketEntries rs b).length) + d) %
                (2 * (bucketEntries rs b).length)))).filter
              (fun x => decide (x.2 ≠ 0) && decide (stVal (2 * (bucketEntries rs b).length) x =
                checksum k / 256 % (2 * (bucketEntries rs b).length)))).filterMap
              (hitInfo (build rs) (checksum k) k) :=
            (filterMap_filter_of (hitInfo (build rs) (checksum k) k) _ hsp _).symm
        _ = ((bucketEntries rs b).filter
              (fun x => decide (x.2 ≠ 0) && decide (stVal (2 * (bucketEntries rs b).length) x =
                checksum k / 256 % (2 * (bucketEntries rs b).length)))).filterMap
              (hitInfo (build rs) (checksum k) k) :=
            congrArg (fun l => l.filterMap (hitInfo (build rs) (checksum k) k))
              (hfil4 (checksum k / 256 % (2 * (bucketEntries rs b).length)) hslt D hD)
        _ = (bucketEntries rs b).filterMap (hitInfo (build rs) (checksum k) k) :=
            filterMap_filter_of (hitInfo (build rs) (checksum k) k) _ hsp _
        _ = (bucketRecs rs b).filterMap
              (fun pr => hitInfo (build rs) (checksum k) k (checksum pr.2.1, pr.1)) := by
            show ((bucketRecs rs b).map (fun pr => (checksum pr.2.1, pr.1))).filterMap
              (hitInfo (build rs) (checksum k) k) = _
            rw [List.filterMap_map]
            rfl
        _ = (bucketRecs rs b).filterMap
              (fun pr => if pr.2.1 = k then some (pr.1 + 8 + k.length, pr.2.2.length)
                else none) :=
            List.filterMap_congr (fun pr hpr =>
              entry_hit rs k pr hrok hkok hsz hklen (List.mem_of_mem_filter hpr))
        _ = (layout 2048 rs).filterMap
              (fun pr => if pr.2.1 = k then some (pr.1 + 8 + k.length, pr.2.2.length)
                else none) := by
            show ((layout 2048 rs).filter
                (fun pr => decide (checksum pr.2.1 % 256 = b))).filterMap
                (fun pr => if pr.2.1 = k then some (pr.1 + 8 + k.length, pr.2.2.length)
                  else none) = _
            apply filterMap_filter_of
            intro pr hpr
            by_cases h : pr.2.1 = k
            · rw [decide_eq_true_eq, h]
              exact hB
            · rw [if_neg h] at hpr
              simp at hpr
    have hfinal : (absYields (fun i => classify (build rs) (checksum k) k
          (slotD (tableFor rs b) ((checksum k / 256 % (2 * (bucketEntries rs b).length) + i) %
            (2 * (bucketEntries rs b).length))))
        (2 * (bucketEntries rs b).length) 0 (2 * (bucketEntries rs b).length - 0)).map
          (fun p => extract (build rs) p.1 p.2) =
        (rs.filter (fun r => decide (r.1 = k))).map (fun r => r.2) := by
      calc (absYields (fun i => classify (build rs) (checksum k) k
              (slotD (tableFor rs b) ((checksum k / 256 % (2 * (bucketEntries rs b).length) + i) %
                (2 * (bucketEntries rs b).length))))
            (2 * (bucketEntries rs b).length) 0 (2 * (bucketEntries rs b).length - 0)).map
              (fun p => extract (build rs) p.1 p.2)
          = ((layout 2048 rs).filterMap
              (fun pr => if pr.2.1 = k then some (pr.1 + 8 + k.length, pr.2.2.length)
                else none)).map (fun p => extract (build rs) p.1 p.2) := by rw [hlist]
        _ = (layout 2048 rs).filterMap
              (fun pr => ((if pr.2.1 = k then some (pr.1 + 8 + k.length, pr.2.2.length)
                else none : Option (Nat × Nat)).map (fun p => extract (build rs) p.1 p.2))) :=
            List.map_filterMap _ _ _
        _ = (layout 2048 rs).filterMap (fun pr => if pr.2.1 = k then some pr.2.2 else none) := by
            apply List.filterMap_congr
            intro pr hpr
            by_cases h : pr.2.1 = k
            · rw [if_pos h, if_pos h]
              show some (extract (build rs) (pr.1 + 8 + k.length) pr.2.2.length) = some pr.2.2
              obtain ⟨hread, hkey, hval⟩ := build_records rs hsz pr hpr
              have hbk2 := (hrok pr.2 (layout_mem_rec rs pr hpr)).2
              rw [show (k.length : Nat) = pr.2.1.length from (congrArg List.length h).symm,
                hval, bnorm_eq_self pr.2.2 hbk2]
            · rw [if_neg h, if_neg h]
              rfl
        _ = ((layout 2048 rs).map Prod.snd).filterMap
              (fun r => if r.1 = k then some r.2 else none) :=
            (List.filterMap_map Prod.snd (fun r : Rec => if r.1 = k then some r.2 else none)
              (layout 2048 rs)).symm
        _ = rs.filterMap (fun r => if r.1 = k then some r.2 else none) := by
            rw [layout_map_snd rs 2048]
        _ = (rs.filter (fun r => decide (r.1 = k))).map (fun r => r.2) :=
            filterMap_ite_eq_filter_map rs k
    have hsltU : subPos rs b + (checksum k / 256 % (2 * (bucketEntries rs b).length)) * 8 <
        U32 := by omega
    have hstate :
        ({ key := k, initErr := none, loop := 0, khash := checksum k,
           kpos := (subPos rs b +
             (checksum k / 256 % (2 * (bucketEntries rs b).length)) * 8) % U32,
           hpos := subPos rs b, hslots := 2 * (bucketEntries rs b).length,
           dpos := 0, dlen := 0 } : Iter) =
        stateFor k (checksum k) (subPos rs b) (2 * (bucketEntries rs b).length)
          (checksum k / 256 % (2 * (bucketEntries rs b).length)) 0 0 0 := by
      unfold stateFor
      have hk : (subPos rs b +
          (checksum k / 256 % (2 * (bucketEntries rs b).length)) * 8) % U32 =
          subPos rs b + 8 * ((checksum k / 256 % (2 * (bucketEntries rs b).length) + 0) %
            (2 * (bucketEntries rs b).length)) := by
        rw [Nat.add_zero, Nat.mod_eq_of_lt hslt, Nat.mod_eq_of_lt hsltU]
        ring
      rw [hk]
    rw [Iterate_ok_pos (build rs) k (subPos rs b) (2 * (bucketEntries rs b).length)
      (by rw [hB]; exact hhr) (by omega), hstate,
      collect_sim (build rs) k (checksum k) (subPos rs b) (2 * (bucketEntries rs b).length)
        (checksum k / 256 % (2 * (bucketEntries rs b).length)) (slotD (tableFor rs b)) ctx
        (2 * (bucketEntries rs b).length) 0 0 0 fuel (by omega)
        (by rw [hlist]
            have h1 := List.length_filterMap_le
              (fun pr => if pr.2.1 = k then some (pr.1 + 8 + k.length, pr.2.2.length)
                else none) (layout 2048 rs)
            rw [layout_length rs 2048] at h1
            omega),
      hfinal]

/-! ### Claim C1: lookup yields the key's values in write order -/

/-- Claim C1: on a database built from a record stream, for every query key
the successive `NextBytes` calls on `Iterate`'s iterator yield exactly the
values recorded for that key, in write order, and then signal exhaustion
(io.EOF); a key never written yields exhaustion immediately with no value.
(spec-modelled: `Make`, the builder, is not among the sources and is
modelled from spec sections 3 and 4.2 as `build`.) -/
theorem c1_lookup_yields_values_in_order (rs : List Rec) (k : List Nat)
    (hrok : RecsOk rs) (hkok : ByteOk k) (hsz : buildSize rs < U32) (hklen : k.length < U32)
    (fuel : Nat) (hfuel : rs.length + 1 ≤ fuel) :
    collect (build rs) (Iterate (build rs) k) fuel =
      some ((rs.filter (fun r => decide (r.1 = k))).map (fun r => r.2), .eof) ∧
    ((∀ r ∈ rs, r.1 ≠ k) →
      collect (build rs) (Iterate (build rs) k) fuel = some ([], .eof)) := by
  have hc := collect_build rs k hrok hkok hsz hklen fuel hfuel
  refine ⟨hc, ?_⟩
  intro habs
  rw [hc]
  have hfil : rs.filter (fun r => decide (r.1 = k)) = [] := by
    rw [List.filter_eq_nil_iff]
    intro r hr hdec
    exact habs r hr (of_decide_eq_true hdec)
  rw [hfil]
  rfl

theorem c1_witness :
    RecsOk ([([0], [1]), ([2], [3]), ([0], [4])] : List Rec) ∧
    buildSize [([0], [1]), ([2], [3]), ([0], [4])] < U32 ∧
    collect (build [([0], [1]), ([2], [3]), ([0], [4])])
        (Iterate (build [([0], [1]), ([2], [3]), ([0], [4])]) [0]) 4 =
      some ((([([0], [1]), ([2], [3]), ([0], [4])] : List Rec).filter
          (fun r => decide (r.1 = [0]))).map (fun r => r.2), .eof) :=
  ⟨by decide, by decide,
   (c1_lookup_yields_values_in_order [([0], [1]), ([2], [3]), ([0], [4])] [0]
     (by decide) (by decide) (by decide) (by decide) 4 (by decide)).1⟩

/-! ### Claim C2: full-key comparison and collision safety -/

theorem nextAux_hit_inv (f : File) : ∀ (fuel : Nat) (it it' : Iter),
    nextAux f fuel it = some (.ok it') →
    ∃ kpos slotHash recPos dataLen,
      readNums f kpos = .ok (slotHash, recPos) ∧ recPos ≠ 0 ∧ slotHash = it.khash ∧
      readNums f recPos = .ok (it.key.length % U32, dataLen) ∧
      matchKey f it.key ((recPos + 8) % U32) = .ok true ∧
      it'.dpos = (recPos + 8 + it.key.length % U32) % U32 ∧ it'.dlen = dataLen := by
  intro fuel
  induction fuel with
  | zero =>
    intro it it' h
    cases h
  | succ m ih =>
    intro it it' h
    unfold nextAux at h
    by_cases hle : it.hslots ≤ it.loop
    · rw [if_pos hle] at h
      cases h
    · rw [if_neg hle] at h
      cases hr : readNums f it.kpos with
      | error e =>
        rw [hr] at h
        cases h
      | ok p =>
        obtain ⟨slotHash, recPos⟩ := p
        rw [hr] at h
        dsimp only at h
        by_cases hz : recPos = 0
        · rw [if_pos hz] at h
          cases h
        · rw [if_neg hz] at h
          by_cases hsh : slotHash ≠ it.khash
          · rw [if_pos hsh] at h
            obtain ⟨kp, sh, rp, dl, h1, h2, h3, h4, h5, h6, h7⟩ := ih _ it' h
            exact ⟨kp, sh, rp, dl, h1, h2, h3, h4, h5, h6, h7⟩
          · rw [if_neg hsh] at h
            cases hr2 : readNums f recPos with
            | error e =>
              rw [hr2] at h
              cases h
            | ok q =>
              obtain ⟨keyLen, dataLen⟩ := q
              rw [hr2] at h
              dsimp only at h
              by_cases hkl : keyLen ≠ it.key.length % U32
              · rw [if_pos hkl] at h
                obtain ⟨kp, sh, rp, dl, h1, h2, h3, h4, h5, h6, h7⟩ := ih _ it' h
                exact ⟨kp, sh, rp, dl, h1, h2, h3, h4, h5, h6, h7⟩
              · rw [if_neg hkl] at h
                cases hm : matchKey f it.key ((recPos + 8) % U32) with
                | error e =>
                  rw [hm] at h
                  cases h
                | ok bv =>
                  rw [hm] at h
                  cases bv with
                  | false =>
                    dsimp only at h
                    obtain ⟨kp, sh, rp, dl, h1, h2, h3, h4, h5, h6, h7⟩ := ih _ it' h
                    exact ⟨kp, sh, rp, dl, h1, h2, h3, h4, h5, h6, h7⟩
                  | true =>
                    dsimp only at h
                    injection h with h
                    injection h with h
                    have hkeq : keyLen = it.key.length % U32 := not_not.mp hkl
                    rw [hkeq] at hr2
                    refine ⟨it.kpos, slotHash, recPos, dataLen, hr, hz, not_not.mp hsh,
                      hr2, hm, ?_, ?_⟩
                    · rw [← h]
                      show (recPos + 8 + keyLen) % U32 = _
                      rw [hkeq]
                    · rw [← h]

/-- Claim C2: a slot yields a record only if the slot hash equals the query
hash, the stored key length equals the query key length, and the full
byte-for-byte key comparison succeeds (so the stored key bytes are the
query key's bytes); consequently, for distinct keys colliding on the
bucket or on the full 32-bit hash, a lookup for each key returns exactly
that key's own values in write order, and the collision is never surfaced
as an error — the scan still ends in the benign io.EOF.
(spec-modelled: the builder `Make` is modelled from the spec as `build`.) -/
theorem c2_full_key_comparison_guards_collisions :
    (∀ (f : File) (fuel : Nat) (it it' : Iter), nextAux f fuel it = some (.ok it') →
      ∃ kpos slotHash recPos dataLen,
        readNums f kpos = .ok (slotHash, recPos) ∧ recPos ≠ 0 ∧ slotHash = it.khash ∧
        readNums f recPos = .ok (it.key.length % U32, dataLen) ∧
        matchKey f it.key ((recPos + 8) % U32) = .ok true ∧
        (f.length < U32 → extract f ((recPos + 8) % U32) it.key.length = bnorm it.key)) ∧
    (∀ (rs : List Rec) (k1 k2 : List Nat), RecsOk rs → ByteOk k1 → ByteOk k2 →
      buildSize rs < U32 → k1.length < U32 → k2.length < U32 → k1 ≠ k2 →
      (checksum k1 % 256 = checksum k2 % 256 ∨ checksum k1 = checksum k2) →
      ∀ fuel, rs.length + 1 ≤ fuel →
        collect (build rs) (Iterate (build rs) k1) fuel =
          some ((rs.filter (fun r => decide (r.1 = k1))).map (fun r => r.2), .eof) ∧
        collect (build rs) (Iterate (build rs) k2) fuel =
          some ((rs.filter (fun r => decide (r.1 = k2))).map (fun r => r.2), .eof)) := by
  constructor
  · intro f fuel it it' h
    obtain ⟨kp, sh, rp, dl, h1, h2, h3, h4, h5, _, _⟩ := nextAux_hit_inv f fuel it it' h
    exact ⟨kp, sh, rp, dl, h1, h2, h3, h4, h5,
      fun hU => matchKey_true f it.key ((rp + 8) % U32) hU h5⟩
  · intro rs k1 k2 hrok hk1 hk2 hsz hl1 hl2 _ _ fuel hfuel
    exact ⟨collect_build rs k1 hrok hk1 hsz hl1 fuel hfuel,
      collect_build rs k2 hrok hk2 hsz hl2 fuel hfuel⟩

theorem c2_witness :
    ([224] ≠ ([0, 0] : List Nat) ∧ checksum [224] % 256 = checksum [0, 0] % 256) ∧
    collect (build [([224], [1]), ([0, 0], [2])])
        (Iterate (build [([224], [1]), ([0, 0], [2])]) [224]) 3 =
      some ((([([224], [1]), ([0, 0], [2])] : List Rec).filter
          (fun r => decide (r.1 = [224]))).map (fun r => r.2), .eof) ∧
    collect (build [([224], [1]), ([0, 0], [2])])
        (Iterate (build [([224], [1]), ([0, 0], [2])]) [0, 0]) 3 =
      some ((([([224], [1]), ([0, 0], [2])] : List Rec).filter
          (fun r => decide (r.1 = [0, 0]))).map (fun r => r.2), .eof) :=
  ⟨⟨by decide, by decide⟩,
   c2_full_key_comparison_guards_collisions.2 [([224], [1]), ([0, 0], [2])] [224] [0, 0]
     (by decide) (by decide) (by decide) (by decide) (by decide) (by decide) (by decide)
     (Or.inl (by decide)) 3 (by decide)⟩

/-! ### Claim C6: whole-file traversal -/

theorem forEachAux_build (f : File) (_hU : f.length < U32) :
    ∀ (rs2 : List Rec) (pos fuel : Nat),
      (∀ pr ∈ layout pos rs2, RecordAt f pr.1 pr.2) →
      pos + (rs2.map recSize).sum < U32 →
      rs2.length + 1 ≤ fuel →
      forEachAux f (pos + (rs2.map recSize).sum) pos fuel =
        some (.ok ((layout pos rs2).map
          (fun pr => ((pr.1 + 8, pr.2.1.length),
            (pr.1 + 8 + pr.2.1.length, pr.2.2.length))))) := by
  intro rs2
  induction rs2 with
  | nil =>
    intro pos fuel hrec hU2 hf
    obtain ⟨fl, rfl⟩ : ∃ fl, fuel = fl + 1 := ⟨fuel - 1, by omega⟩
    unfold forEachAux
    rw [if_neg (by simp)]
    rfl
  | cons r rs2 ih =>
    intro pos fuel hrec hU2 hf
    obtain ⟨fl, rfl⟩ : ∃ fl, fuel = fl + 1 := ⟨fuel - 1, by omega⟩
    have hrsz : recSize r = 8 + r.1.length + r.2.length := rfl
    have hsum : ((r :: rs2).map recSize).sum = recSize r + (rs2.map recSize).sum := by
      rw [List.map_cons, List.sum_cons]
    have hmem : (pos, r) ∈ layout pos (r :: rs2) := by
      unfold layout
      exact List.mem_cons_self _ _
    obtain ⟨hread, hkey, hval⟩ := hrec (pos, r) hmem
    unfold forEachAux
    rw [if_pos (by rw [hsum]; omega)]
    rw [hread]
    dsimp only
    have hmod : (pos + 8 + r.1.length + r.2.length) % U32 = pos + recSize r := by
      rw [Nat.mod_eq_of_lt (by rw [hsum] at hU2; omega)]
      omega
    have hend : pos + ((r :: rs2).map recSize).sum =
        pos + recSize r + (rs2.map recSize).sum := by
      rw [hsum]
      omega
    rw [hmod, hend, ih (pos + recSize r) fl ?hrec2 (by rw [hend] at hU2; exact hU2)
      (by simp only [List.length_cons] at hf; omega)]
    case hrec2 =>
      intro pr hpr
      apply hrec
      unfold layout
      exact List.mem_cons_of_mem _ hpr
    dsimp only
    rw [show (pos + 8) % U32 = pos + 8 from Nat.mod_eq_of_lt (by rw [hsum] at hU2; omega),
      show (pos + 8 + r.1.length) % U32 = pos + 8 + r.1.length from
        Nat.mod_eq_of_lt (by rw [hsum] at hU2; omega)]
    rfl

theorem ForEachReader_build (rs : List Rec) (hsz : buildSize rs < U32) (fuel : Nat)
    (hfuel : rs.length + 1 ≤ fuel) :
    ForEachReader (build rs) fuel =
      some (.ok ((layout 2048 rs).map
        (fun pr => ((pr.1 + 8, pr.2.1.length),
          (pr.1 + 8 + pr.2.1.length, pr.2.2.length))))) := by
  unfold ForEachReader
  have h0 : readNums (build rs) 0 = .ok (subPos rs 0, 2 * (bucketEntries rs 0).length) :=
    header_read rs 0 (by omega) hsz
  rw [h0]
  dsimp only
  have hsub : subPos rs 0 = 2048 + (rs.map recSize).sum := by
    unfold subPos
    rw [endRecords_eq]
    simp
  have hbs : buildSize rs = 2048 + (rs.map recSize).sum + 16 * rs.length := rfl
  rw [hsub]
  exact forEachAux_build (build rs) (by rw [build_length]; exact hsz) rs 2048 fuel
    (build_records rs hsz) (by omega) hfuel

theorem mapM_ok {α β : Type} (g : α → Except Err β) (h : α → β) :
    ∀ l : List α, (∀ a ∈ l, g a = .ok (h a)) → l.mapM g = .ok (l.map h) := by
  intro l
  induction l with
  | nil =>
    intro _
    rfl
  | cons a l ih =>
    intro hall
    rw [List.mapM_cons, hall a (List.mem_cons_self a l),
      ih (fun x hx => hall x (List.mem_cons_of_mem a hx))]
    rfl

theorem readFullSection_ok (f : File) (pos len : Nat) (h : pos + len ≤ f.length) :
    readFullSection f pos len = .ok (extract f pos len) := by
  unfold readFullSection
  rw [if_pos (by omega)]

theorem ForEachBytes_build (rs : List Rec) (hrok : RecsOk rs) (hsz : buildSize rs < U32)
    (fuel : Nat) (hfuel : rs.length + 1 ≤ fuel) :
    ForEachBytes (build rs) fuel = some (.ok rs) := by
  unfold ForEachBytes
  rw [ForEachReader_build rs hsz fuel hfuel]
  dsimp only
  have hflen : (build rs).length = buildSize rs := build_length rs
  have hbs : buildSize rs = 2048 + (rs.map recSize).sum + 16 * rs.length := rfl
  have hcond : ∀ s ∈ (layout 2048 rs).map
      (fun pr => ((pr.1 + 8, pr.2.1.length), (pr.1 + 8 + pr.2.1.length, pr.2.2.length))),
      (do
        let k ← readFullSection (build rs) s.1.1 s.1.2
        let v ← readFullSection (build rs) s.2.1 s.2.2
        pure (k, v) : Except Err (List Nat × List Nat)) =
        .ok (extract (build rs) s.1.1 s.1.2, extract (build rs) s.2.1 s.2.2) := by
    intro s hs
    rw [List.mem_map] at hs
    obtain ⟨pr, hpr, rfl⟩ := hs
    have hbnd : 2048 ≤ pr.1 ∧ pr.1 + recSize pr.2 ≤ 2048 + (rs.map recSize).sum :=
      layout_bounds rs 2048 pr hpr
    have hrsz : recSize pr.2 = 8 + pr.2.1.length + pr.2.2.length := rfl
    rw [readFullSection_ok (build rs) _ _ (by rw [hflen]; show pr.1 + 8 + pr.2.1.length ≤ _; omega),
      readFullSection_ok (build rs) _ _
        (by rw [hflen]; show pr.1 + 8 + pr.2.1.length + pr.2.2.length ≤ _; omega)]
    rfl
  rw [mapM_ok _ (fun s => (extract (build rs) s.1.1 s.1.2, extract (build rs) s.2.1 s.2.2))
    _ hcond]
  have hmap : (((layout 2048 rs).map
      (fun pr => ((pr.1 + 8, pr.2.1.length), (pr.1 + 8 + pr.2.1.length, pr.2.2.length)))).map
      (fun s => (extract (build rs) s.1.1 s.1.2, extract (build rs) s.2.1 s.2.2))) = rs := by
    rw [List.map_map]
    have hcong : (layout 2048 rs).map
        ((fun s : (Nat × Nat) × (Nat × Nat) =>
          (extract (build rs) s.1.1 s.1.2, extract (build rs) s.2.1 s.2.2)) ∘
          (fun pr => ((pr.1 + 8, pr.2.1.length), (pr.1 + 8 + pr.2.1.length, pr.2.2.length)))) =
        (layout 2048 rs).map Prod.snd := by
      apply List.map_congr_left
      intro pr hpr
      obtain ⟨hread, hkey, hval⟩ := build_records rs hsz pr hpr
      obtain ⟨hb1, hb2⟩ := hrok pr.2 (layout_mem_rec rs pr hpr)
      show (extract (build rs) (pr.1 + 8) pr.2.1.length,
        extract (build rs) (pr.1 + 8 + pr.2.1.length) pr.2.2.length) = pr.2
      rw [hkey, hval, bnorm_eq_self _ hb1, bnorm_eq_self _ hb2]
    rw [hcong, layout_map_snd rs 2048]
  rw [hmap]

/-- Claim C6: whole-file iteration traverses the record region from offset
2048 up to the offset stored in header entry 0, decoding one record at a
time; on a built database `ForEachReader` hands the callback exactly one
(key section, value section) pair per record written, in write order, and
`ForEachBytes` delivers exactly the written records themselves.
(spec-modelled: the builder `Make` is modelled from the spec as `build`.) -/
theorem c6_foreach_visits_records_in_order (rs : List Rec) (hrok : RecsOk rs)
    (hsz : buildSize rs < U32) (fuel : Nat) (hfuel : rs.length + 1 ≤ fuel) :
    ForEachReader (build rs) fuel =
      some (.ok ((layout 2048 rs).map
        (fun pr => ((pr.1 + 8, pr.2.1.length),
          (pr.1 + 8 + pr.2.1.length, pr.2.2.length))))) ∧
    ForEachBytes (build rs) fuel = some (.ok rs) :=
  ⟨ForEachReader_build rs hsz fuel hfuel, ForEachBytes_build rs hrok hsz fuel hfuel⟩

theorem c6_witness :
    RecsOk ([([1, 2], [3]), ([4], [5, 6])] : List Rec) ∧
    ForEachBytes (build [([1, 2], [3]), ([4], [5, 6])]) 3 =
      some (.ok [([1, 2], [3]), ([4], [5, 6])]) :=
  ⟨by decide,
   (c6_foreach_visits_records_in_order [([1, 2], [3]), ([4], [5, 6])]
     (by decide) (by decide) 3 (by decide)).2⟩

/-! ### Claim C7: the interchange round trip -/

theorem takeWhile_all_append (p : Nat → Bool) :
    ∀ (A : List Nat) (c : Nat) (rest : List Nat), (∀ a ∈ A, p a = true) → p c = false →
      (A ++ c :: rest).takeWhile p = A ∧ (A ++ c :: rest).dropWhile p = c :: rest := by
  intro A
  induction A with
  | nil =>
    intro c rest _ hc
    constructor
    · rw [List.nil_append, List.takeWhile_cons, hc]
      rfl
    · rw [List.nil_append, List.dropWhile_cons, hc]
      rfl
  | cons a A ih =>
    intro c rest hall hc
    obtain ⟨ih1, ih2⟩ := ih c rest (fun x hx => hall x (List.mem_cons_of_mem a hx)) hc
    have ha : p a = true := hall a (List.mem_cons_self a A)
    constructor
    · rw [List.cons_append, List.takeWhile_cons, ha]
      simp [ih1]
    · rw [List.cons_append, List.dropWhile_cons, ha]
      simpa using ih2

theorem decimalDigits_digit (n : Nat) : ∀ a ∈ decimalDigits n, isDigit a = true := by
  intro a ha
  unfold decimalDigits at ha
  by_cases h0 : n = 0
  · rw [if_pos h0] at ha
    simp at ha
    rw [ha]
    decide
  · rw [if_neg h0] at ha
    rw [List.mem_reverse, List.mem_map] at ha
    obtain ⟨d, hd, rfl⟩ := ha
    have hlt : d < 10 := Nat.digits_lt_base (by norm_num) hd
    unfold isDigit
    simp only [Bool.and_eq_true, decide_eq_true_eq]
    omega

theorem decimalDigits_ne_nil (n : Nat) : decimalDigits n ≠ [] := by
  unfold decimalDigits
  by_cases h0 : n = 0
  · rw [if_pos h0]
    simp
  · rw [if_neg h0]
    simp
    exact Nat.digits_ne_nil_iff_ne_zero.mpr h0

theorem foldl_ofDigits : ∀ (ds : List Nat) (acc : Nat),
    ((ds.map (· + 48)).reverse).foldl (fun a c => 10 * a + (c - 48)) acc =
      acc * 10 ^ ds.length + Nat.ofDigits 10 ds := by
  intro ds
  induction ds with
  | nil =>
    intro acc
    simp
  | cons d ds ih =>
    intro acc
    rw [List.map_cons, List.reverse_cons, List.foldl_append, ih acc]
    simp only [List.foldl_cons, List.foldl_nil]
    rw [Nat.ofDigits_cons, List.length_cons, pow_succ]
    have hd : d + 48 - 48 = d := by omega
    rw [hd]
    ring

theorem parseDec_render (n c : Nat) (rest : List Nat) (hc : isDigit c = false) :
    parseDec (decimalDigits n ++ c :: rest) = some (n, c :: rest) := by
  obtain ⟨ht, hd⟩ := takeWhile_all_append isDigit (decimalDigits n) c rest
    (decimalDigits_digit n) hc
  unfold parseDec
  dsimp only
  rw [ht, hd, if_neg (decimalDigits_ne_nil n)]
  have hfold : (decimalDigits n).foldl (fun a c => 10 * a + (c - 48)) 0 = n := by
    unfold decimalDigits
    by_cases h0 : n = 0
    · rw [if_pos h0, h0]
      rfl
    · rw [if_neg h0, foldl_ofDigits (Nat.digits 10 n) 0, Nat.ofDigits_digits 10 n]
      simp
  rw [hfold]

theorem parseRec_render (r : Rec) (rest : List Nat) :
    parseRec (renderRec r ++ rest) = some (r, rest) := by
  unfold renderRec
  rw [List.cons_append]
  simp only [List.append_assoc, List.cons_append, List.nil_append]
  simp only [parseRec]
  rw [parseDec_render r.1.length 44 _ (by decide)]
  dsimp only
  rw [parseDec_render r.2.length 58 _ (by decide)]
  dsimp only
  rw [List.take_left, List.drop_left, if_pos rfl]
  dsimp only
  rw [List.take_left, List.drop_left, if_pos rfl]

theorem parseStream_render : ∀ (rs : List Rec) (fuel : Nat), rs.length + 1 ≤ fuel →
    parseStream ((rs.map renderRec).flatten ++ [10]) fuel = some rs := by
  intro rs
  induction rs with
  | nil =>
    intro fuel hf
    obtain ⟨fl, rfl⟩ : ∃ fl, fuel = fl + 1 := ⟨fuel - 1, by omega⟩
    rfl
  | cons r rs ih =>
    intro fuel hf
    obtain ⟨fl, rfl⟩ : ∃ fl, fuel = fl + 1 := ⟨fuel - 1, by omega⟩
    have hsh : ((r :: rs).map renderRec).flatten ++ [10] =
        renderRec r ++ ((rs.map renderRec).flatten ++ [10]) := by
      rw [List.map_cons, List.flatten_cons, List.append_assoc]
    rw [hsh]
    have hcons : renderRec r ++ ((rs.map renderRec).flatten ++ [10]) =
        43 :: ((decimalDigits r.1.length ++ [44] ++ decimalDigits r.2.length ++ [58] ++
          r.1 ++ [45, 62] ++ r.2 ++ [10]) ++ ((rs.map renderRec).flatten ++ [10])) := by
      unfold renderRec
      rw [List.cons_append]
    unfold parseStream
    rw [hcons]
    dsimp only
    rw [← hcons, parseRec_render r ((rs.map renderRec).flatten ++ [10])]
    dsimp only
    rw [ih fl (by simp only [List.length_cons] at hf; omega)]

theorem parseAll_render (rs : List Rec) : parseAll (render rs) = some rs := by
  unfold parseAll render
  apply parseStream_render
  rw [List.length_append, List.length_flatten]
  have h2 : ((rs.map renderRec).map List.length).length ≤
      ((rs.map renderRec).map List.length).sum := by
    apply List.length_le_sum_of_one_le
    intro i hi
    rw [List.mem_map] at hi
    obtain ⟨l, hl, rfl⟩ := hi
    rw [List.mem_map] at hl
    obtain ⟨r2, _, rfl⟩ := hl
    unfold renderRec
    rw [List.length_cons]
    omega
  rw [List.length_map, List.length_map] at h2
  simp only [List.length_cons, List.length_nil]
  omega

theorem dump_build (rs : List Rec) (hrok : RecsOk rs) (hsz : buildSize rs < U32)
    (fuel : Nat) (hfuel : rs.length + 1 ≤ fuel) :
    dump (build rs) fuel = some (render rs) := by
  unfold dump
  rw [ForEachBytes_build rs hrok hsz fuel hfuel]

/-- Claim C7: building, dumping, and building again is byte-identical to
the first build: `dump` of a built file reproduces the interchange text of
the original record stream, and `Make` on that text deterministically
rebuilds the very same file. (spec-modelled: `Make` and `Dump` are not
among the sources and are modelled from spec sections 3, 4.2 and 6 as
`build`, `makeDB` and `dump`.) -/
theorem c7_build_dump_build_roundtrip (rs : List Rec) (hrok : RecsOk rs)
    (hsz : buildSize rs < U32) (fuel : Nat) (hfuel : rs.length + 1 ≤ fuel) :
    dump (build rs) fuel = some (render rs) ∧ makeDB (render rs) = some (build rs) := by
  refine ⟨dump_build rs hrok hsz fuel hfuel, ?_⟩
  unfold makeDB
  rw [parseAll_render rs]
  rfl

theorem c7_witness :
    RecsOk ([([1], [2, 3])] : List Rec) ∧
    dump (build [([1], [2, 3])]) 2 = some (render [([1], [2, 3])]) ∧
    makeDB (render [([1], [2, 3])]) = some (build [([1], [2, 3])]) :=
  ⟨by decide,
   (c7_build_dump_build_roundtrip [([1], [2, 3])] (by decide) (by decide) 2 (by decide)).1,
   (c7_build_dump_build_roundtrip [([1], [2, 3])] (by decide) (by decide) 2 (by decide)).2⟩

/-! ### Claim C10: the existence check -/

/-- Claim C10: `Exists` absorbs the iterator's io.EOF exhaustion signal:
it returns `(false, nil)` when the probe reports exhaustion, `(true, nil)`
when the key has at least one value, and surfaces an error only when the
probe fails with a genuine I/O error (never io.EOF); on a built database
it returns exactly whether the key was written.
(spec-modelled: the builder `Make` is modelled from the spec as `build`.) -/
theorem c10_exists_absorbs_exhaustion :
    (∀ (f : File) (k : List Nat),
      (next f (Iterate f k) = .error .eof → existsKey f k = .ok false) ∧
      (∀ it', next f (Iterate f k) = .ok it' → existsKey f k = .ok true) ∧
      (∀ e, e ≠ .eof → next f (Iterate f k) = .error e → existsKey f k = .error e)) ∧
    (∀ (rs : List Rec) (k : List Nat), RecsOk rs → ByteOk k → buildSize rs < U32 →
      k.length < U32 →
      existsKey (build rs) k =
        .ok (decide (rs.filter (fun r => decide (r.1 = k)) ≠ []))) := by
  constructor
  · intro f k
    refine ⟨?_, ?_, ?_⟩
    · intro h
      unfold existsKey
      rw [h]
    · intro it' h
      unfold existsKey
      rw [h]
    · intro e he h
      unfold existsKey
      rw [h]
      cases e with
      | eof => exact absurd rfl he
      | unexpectedEOF => rfl
      | other => rfl
  · intro rs k hrok hkok hsz hklen
    have hc := collect_build rs k hrok hkok hsz hklen (rs.length + 1) (by omega)
    cases hnx : next (build rs) (Iterate (build rs) k) with
    | error e =>
      have hnb : NextBytes (build rs) (Iterate (build rs) k) = .error e := by
        unfold NextBytes
        rw [hnx]
      unfold collect at hc
      rw [hnb] at hc
      dsimp only at hc
      injection hc with hc
      rw [Prod.mk.injEq] at hc
      obtain ⟨h1, h2⟩ := hc
      subst h2
      have hfil : rs.filter (fun r => decide (r.1 = k)) = [] :=
        List.map_eq_nil_iff.mp h1.symm
      unfold existsKey
      rw [hnx, hfil]
      rfl
    | ok it' =>
      unfold existsKey
      rw [hnx]
      unfold collect NextBytes at hc
      rw [hnx] at hc
      dsimp only at hc
      have hne : (rs.filter (fun r => decide (r.1 = k))).map (fun r => r.2) ≠ [] := by
        intro h0
        rw [h0] at hc
        cases hra : (readAtResult (build rs) it'.dpos it'.dlen).2 with
        | none =>
          rw [hra] at hc
          dsimp only at hc
          cases hcl : collect (build rs) it' rs.length with
          | none =>
            rw [hcl] at hc
            dsimp only at hc
            cases hc
          | some p =>
            obtain ⟨vs, e⟩ := p
            rw [hcl] at hc
            dsimp only at hc
            injection hc with hc
            rw [Prod.mk.injEq] at hc
            exact absurd hc.1 (List.cons_ne_nil _ _)
        | some rerr =>
          cases rerr with
          | eof =>
            rw [hra] at hc
            dsimp only at hc
            injection hc with hc
            rw [Prod.mk.injEq] at hc
            cases hc.2
          | other =>
            rw [hra] at hc
            dsimp only at hc
            injection hc with hc
            rw [Prod.mk.injEq] at hc
            cases hc.2
      have hf : rs.filter (fun r => decide (r.1 = k)) ≠ [] := by
        intro h0
        apply hne
        rw [h0]
        rfl
      rw [decide_eq_true hf]

theorem c10_witness :
    RecsOk ([([5], [6])] : List Rec) ∧
    existsKey (build [([5], [6])]) [5] =
      .ok (decide ((([([5], [6])] : List Rec).filter (fun r => decide (r.1 = [5]))) ≠ [])) :=
  ⟨by decide,
   c10_exists_absorbs_exhaustion.2 [([5], [6])] [5] (by decide) (by decide) (by decide)
     (by decide)⟩

end Cdb
